import Mathlib

/-! # SYB-Patch: the SYB archive codec (`src/SYB-Patch.cpp`)

A shallow embedding of `UnpackFiles` and `PackFiles` and of the parts of the C++ standard
library they rely on, followed by theorems about them.

Modelling conventions.

* A byte is a natural number below 256.  A `char` object is represented by its byte value;
  `char` is a signed 8-bit type on the platform the program is written for (it uses backslash
  path separators and `int main(char argc, ...)`), so a `char` promoted to `int` is sign
  extended (`charToInt`).
* 32-bit integers (`int`, `unsigned int`) are represented by their 32-bit pattern, a natural
  number below `2^32`; arithmetic is reduced `% 2^32` (`u32`).
* `assert` is enabled: a failing assertion aborts the program.
* A stream read that reaches the end of the file stores the bytes that are left and leaves the
  rest of the destination buffer as it was; every later read stores nothing.
* Opening an output file always succeeds; the file system queries `exists`, `is_directory`
  and `file_size` do not throw, and the input directory of `PackFiles` holds regular files.
-/

namespace SYBPatch

/-! ## Machine integers and characters -/

/-- Reduction to an unsigned 32-bit value. -/
def u32 (n : Nat) : Nat := n % 4294967296

/-- Integral promotion of a (signed) `char` with byte value `b` to a 32-bit `int`,
as a 32-bit two's complement pattern. -/
def charToInt (b : Nat) : Nat := if b < 128 then b else b + 4294967040

/-- Value of a (signed) `char` with byte value `b`. -/
def charVal (b : Nat) : Int := if b < 128 then (b : Int) else (b : Int) - 256

/-- Left shift on 32-bit patterns: `x << k`. -/
def shl32 (x k : Nat) : Nat := u32 (x <<< k)

/-- Bytes of an ASCII string literal. -/
def str (s : String) : List Nat := s.toList.map Char.toNat

/-! ## Data model (source lines 11-17) -/

structure SYBFileInfo where
  fileName : List Nat
  extension : List Nat
  fileSize : Nat
  deriving DecidableEq, Repr

inductive SYBFileInfoField where
  | FileName
  | FileSize
  deriving DecidableEq, Repr

/-! ## Input streams -/

/-- The call `stream.read(buf, n)` on a stream whose unread bytes are `s`: returns the buffer
after the call and the bytes still unread.  When fewer than `n` bytes are left, only those are
stored and the tail of the buffer keeps its old content. -/
def streamRead (s : List Nat) (buf : List Nat) (n : Nat) : List Nat × List Nat :=
  (s.take n ++ buf.drop (s.take n).length, s.drop n)

/-! ## Chunked copy (source lines 125-137 and 233-245) -/

def cBufSize : Nat := 10 * 1024

/-- State of a chunked copy: unread input, the `buffer` array, bytes written so far. -/
structure CopyState where
  input : List Nat
  buffer : List Nat
  output : List Nat
  deriving DecidableEq, Repr

/-- The `do { ... } while( leftToRead > 0 )` loop.  The first argument is fuel, one unit per
iteration; `none` means the fuel ran out before the loop condition became false. -/
def copyLoop : Nat → Nat → CopyState → Option CopyState
  | 0, _, _ => none
  | fuel + 1, leftToRead, st =>
    let readSize := min leftToRead cBufSize
    let r := streamRead st.input st.buffer readSize
    let st1 : CopyState := ⟨r.2, r.1, st.output ++ r.1.take readSize⟩
    let leftToRead1 := leftToRead - readSize
    if leftToRead1 > 0 then copyLoop fuel leftToRead1 st1 else some st1

/-- One file copy: `leftToRead = fileSize`, then the loop. Every iteration but the last
decreases `leftToRead`, so `fileSize + 1` iterations are enough. -/
def copyFile (fileSize : Nat) (st : CopyState) : Option CopyState :=
  copyLoop (fileSize + 1) fileSize st

/-! ## UnpackFiles (source lines 20-142) -/

/-- The condition of the magic check, line 45, on the 4-byte buffer `buf`. -/
def wrongMagic (buf : List Nat) : Bool :=
  charToInt (buf.getD 0 0) != 0x56 || charToInt (buf.getD 1 0) != 0x58 ||
  charToInt (buf.getD 2 0) != 0x42 || charToInt (buf.getD 3 0) != 0x47

/-- Line 52: `buf[0] | buf[1] << 8 | buf[2] << 16 | buf[3] << 24` converted to
`unsigned int`; the operands are `char` objects promoted to `int`. -/
def decodeFileinfoSize (buf : List Nat) : Nat :=
  u32 (charToInt (buf.getD 0 0) ||| shl32 (charToInt (buf.getD 1 0)) 8 |||
    shl32 (charToInt (buf.getD 2 0)) 16 ||| shl32 (charToInt (buf.getD 3 0)) 24)

def cMaxFileNameSize : Nat := 128

/-- Local variables of the file info section parser (lines 57-63). -/
structure ParserState where
  fileInfos : List SYBFileInfo
  curFileName : List Nat
  curFileSize : Nat
  curIdx : Nat
  curFIField : SYBFileInfoField
  deriving DecidableEq, Repr

/-- The string a `char` array holds: the bytes before the first zero byte. -/
def cString (a : List Nat) : List Nat := a.takeWhile (fun c => c != 0)

/-- Parser state on entry to the loop. The content of `curFileName` is indeterminate in the
source; every element is written before it is read, and the model starts from zeros. -/
def parserInit : ParserState :=
  ⟨[], List.replicate cMaxFileNameSize 0, 0, 0, SYBFileInfoField.FileName⟩

/-- Body of the parser loop (lines 68-95) for the byte `b` held in `buf[0]`.
`none` is a failed assertion. `curIdx` is an `unsigned char`. -/
def parseByte (st : ParserState) (b : Nat) : Option ParserState :=
  match st.curFIField with
  | SYBFileInfoField.FileName =>
    if b != 0 then
      let name := st.curFileName.set st.curIdx b
      let idx := (st.curIdx + 1) % 256
      if idx < cMaxFileNameSize then some { st with curFileName := name, curIdx := idx }
      else none
    else
      some { st with curFileName := st.curFileName.set st.curIdx 0, curIdx := 0,
                     curFIField := SYBFileInfoField.FileSize }
  | SYBFileInfoField.FileSize =>
    let size := u32 (st.curFileSize ||| shl32 b (8 * st.curIdx))
    let idx := (st.curIdx + 1) % 256
    if idx = 4 then
      some { st with curIdx := 0, curFIField := SYBFileInfoField.FileName,
                     fileInfos := st.fileInfos ++ [⟨cString st.curFileName, [], size⟩],
                     curFileSize := 0 }
    else
      some { st with curFileSize := size, curIdx := idx }

/-- The loop `for( i = 0; i < fileinfoSize; ++i )` of lines 65-96: the first argument is the
number of iterations still to run, `buf` the 4-byte buffer, `s` the unread input.
`none` is a failed assertion. -/
def parseLoop : Nat → ParserState → List Nat → List Nat → Option (ParserState × List Nat × List Nat)
  | 0, st, buf, s => some (st, buf, s)
  | n + 1, st, buf, s =>
    let r := streamRead s buf 1
    match parseByte st (r.1.getD 0 0) with
    | none => none
    | some st1 => parseLoop n st1 r.1 r.2

/-- State of a path of the file system. A directory is given by its files (name, content). -/
inductive PathState where
  | absent
  | file
  | directory (files : List (List Nat × List Nat))
  deriving DecidableEq, Repr

/-- Effect of opening `name` for writing in a directory and writing `data` to it. -/
def putFile (files : List (List Nat × List Nat)) (name data : List Nat) :
    List (List Nat × List Nat) :=
  if files.any (fun f => f.1 == name) then
    files.map (fun f => if f.1 == name then (name, data) else f)
  else files ++ [(name, data)]

/-- Result of the call `std::filesystem::create_directory( outputPath )` of line 104, made
when `outputPath` does not exist: the library function returns `true` when it created the
directory, returns `false` when the directory exists already (it appeared since the check of
line 102), and throws `std::filesystem::filesystem_error` when the directory cannot be
created. -/
inductive CreateDirectoryResult where
  | created
  | existsAlready
  | failed
  deriving DecidableEq, Repr

/-- What a run of the program ends with: a return code, a failed assertion, or an exception
that nothing catches (`std::terminate`). -/
inductive Outcome where
  | returned (code : Nat) (output : PathState)
  | assertFailed (output : PathState)
  | terminated (output : PathState)
  deriving DecidableEq, Repr

/-- The extraction loop of lines 119-138 over the entries still to extract. -/
def extractLoop : List SYBFileInfo → List Nat → List Nat → List (List Nat × List Nat) →
    Option (List (List Nat × List Nat))
  | [], _, _, files => some files
  | curFI :: rest, input, buffer, files =>
    match copyFile curFI.fileSize ⟨input, buffer, []⟩ with
    | none => none
    | some st => extractLoop rest st.input st.buffer (putFile files curFI.fileName st.output)

/-- Everything `UnpackFiles` depends on. -/
structure UnpackEnv where
  /-- Whether `inputPath` exists. -/
  inputExists : Bool
  /-- The extension of `inputPath`. -/
  inputExtension : List Nat
  /-- The bytes of the input file. -/
  input : List Nat
  /-- The state of `outputPath`. -/
  output : PathState
  /-- What `create_directory( outputPath )` does when it is called. -/
  createDirectory : CreateDirectoryResult
  /-- What the array `buf` of line 43 holds before the first read (4 bytes). -/
  buf : List Nat
  /-- What the array `buffer` of line 126 holds before the first read (10240 bytes). -/
  buffer : List Nat

/-- Lines 99-141, reached once the table is parsed: output directory preparation, extraction,
`return 0`. An exception thrown by `create_directory` leaves `UnpackFiles` and `main`. -/
def extractFiles (env : UnpackEnv) (fileInfos : List SYBFileInfo) (s : List Nat) :
    Option Outcome :=
  match env.output with
  | PathState.absent =>
    match env.createDirectory with
    | CreateDirectoryResult.failed => some (Outcome.terminated env.output)
    | CreateDirectoryResult.existsAlready => some (Outcome.returned 1 env.output)
    | CreateDirectoryResult.created =>
      (extractLoop fileInfos s env.buffer []).map
        (fun files => Outcome.returned 0 (PathState.directory files))
  | PathState.file => some (Outcome.returned 1 env.output)
  | PathState.directory files =>
    (extractLoop fileInfos s env.buffer files).map
      (fun files1 => Outcome.returned 0 (PathState.directory files1))

/-- Lines 51-141: the part of `UnpackFiles` after the magic check, with `buf` and the unread
input `s` as the first read left them. -/
def unpackBody (env : UnpackEnv) (buf s : List Nat) : Option Outcome :=
  let r := streamRead s buf 4
  let fileinfoSize := decodeFileinfoSize r.1
  match parseLoop fileinfoSize parserInit r.1 r.2 with
  | none => some (Outcome.assertFailed env.output)
  | some (st, _, s1) => extractFiles env st.fileInfos s1

/-- `UnpackFiles`. `none` only when a copy loop of the model ran out of fuel. -/
def UnpackFiles (env : UnpackEnv) : Option Outcome :=
  if !env.inputExists then some (Outcome.returned 1 env.output)
  else if env.inputExtension != str ".syb" && env.inputExtension != str ".SYB" then
    some (Outcome.returned 1 env.output)
  else
    let r := streamRead env.input env.buf 4
    if wrongMagic r.1 then some (Outcome.returned 1 env.output)
    else unpackBody env r.1 r.2

/-! ## PackFiles (source lines 144-250) -/

/-- Suffix of `s` that starts at its rightmost period, if `s` has a period. -/
def fromLastPeriod : List Nat → Option (List Nat)
  | [] => none
  | c :: cs =>
    match fromLastPeriod cs with
    | some e => some e
    | none => if c = 46 then some (c :: cs) else none

/-- The library function `std::filesystem::path::extension` on a file name: the substring
from the rightmost period, empty when there is no period, when the only period is the first
character, and for the names `.` and `..`. -/
def pathExtension (name : List Nat) : List Nat :=
  match name with
  | [] => []
  | c :: cs => if c :: cs = [46, 46] then [] else (fromLastPeriod cs).getD []

/-- The `SYBFileInfo` pushed at line 181 for a directory entry (file name, file content). -/
def mkFileInfo (entry : List Nat × List Nat) : SYBFileInfo :=
  ⟨entry.1, pathExtension entry.1, u32 entry.2.length⟩

/-- The collection loop of lines 178-184 over the directory entries still to visit, with the
current values of `fileInfos` and `fileInfoSectionSize`. -/
def collectLoop : List (List Nat × List Nat) → List SYBFileInfo → Nat → List SYBFileInfo × Nat
  | [], fileInfos, fileInfoSectionSize => (fileInfos, fileInfoSectionSize)
  | entry :: rest, fileInfos, fileInfoSectionSize =>
    collectLoop rest (fileInfos ++ [mkFileInfo entry])
      (u32 (fileInfoSectionSize + u32 (u32 (u32 (mkFileInfo entry).fileName.length + 1) + 4)))

/-- The library function `std::lexicographical_compare` with a comparison `comp`. -/
def lexicographical_compare (comp : Nat → Nat → Bool) : List Nat → List Nat → Bool
  | [], [] => false
  | [], _ :: _ => true
  | _ :: _, [] => false
  | a :: as, b :: bs =>
    if comp a b then true
    else if comp b a then false
    else lexicographical_compare comp as bs

/-- The character predicate of line 193: `a != '_' && b == '_' || a < b` on `char`s. -/
def charPred (a b : Nat) : Bool := (a != 95 && b == 95) || decide (charVal a < charVal b)

/-- The comparator passed to `std::stable_sort`, lines 188-198. -/
def sortComp (fi1 fi2 : SYBFileInfo) : Bool :=
  (fi1.extension == fi2.extension &&
    lexicographical_compare charPred fi1.fileName fi1.fileName) ||
  (fi1.extension != fi2.extension &&
    (fi1.extension == str ".mp3" ||
     (fi1.extension == str ".wav" && fi2.extension != str ".mp3") ||
     (fi1.extension == str ".jpg" && fi2.extension != str ".mp3" &&
        fi2.extension != str ".wav")))

/-- Insertion of `x` into a sorted list before the first element that is not less than `x`. -/
def stableInsert {α : Type} (comp : α → α → Bool) (x : α) : List α → List α
  | [] => [x]
  | y :: ys => if comp y x then y :: stableInsert comp x ys else x :: y :: ys

/-- The library function `std::stable_sort`: the sorted arrangement in which elements that
`comp` does not order keep their relative order. Each element, from the last to the first, is
inserted before the elements after it that are not less than it. -/
def stable_sort {α : Type} (comp : α → α → Bool) (l : List α) : List α :=
  l.foldr (stableInsert comp) []

/-- The vector `fileInfos` after line 198, for the directory enumeration `dir`. -/
def sortedFileInfos (dir : List (List Nat × List Nat)) : List SYBFileInfo :=
  stable_sort sortComp (collectLoop dir [] 0).1

/-- The value of `fileInfoSectionSize` after line 184. -/
def fileInfoSectionSize (dir : List (List Nat × List Nat)) : Nat := (collectLoop dir [] 0).2

/-- The four `put` calls that write a 32-bit value, lines 207-210 and 220-223. -/
def putU32 (v : Nat) : List Nat :=
  [(v >>> 0) &&& 0xFF, (v >>> 8) &&& 0xFF, (v >>> 16) &&& 0xFF, (v >>> 24) &&& 0xFF]

/-- Header section, lines 203-210. -/
def writeHeader (fileInfoSectionSize : Nat) : List Nat :=
  [0x56, 0x58, 0x42, 0x47] ++ putU32 fileInfoSectionSize

/-- One iteration of the file info section loop, lines 219-223. -/
def writeFileInfo (curFI : SYBFileInfo) : List Nat :=
  curFI.fileName ++ [0] ++ putU32 curFI.fileSize

/-- File info section, lines 215-224. -/
def writeFileInfos : List SYBFileInfo → List Nat
  | [] => []
  | curFI :: rest => writeFileInfo curFI ++ writeFileInfos rest

/-- Content of the file opened at line 231; a file that cannot be opened yields no bytes. -/
def openInput (dir : List (List Nat × List Nat)) (name : List Nat) : List Nat :=
  ((dir.find? (fun f => f.1 == name)).map (fun f => f.2)).getD []

/-- File content section, lines 229-246: the entries still to copy, the `buffer` array and
the bytes written to the output file so far. -/
def writeContents (dir : List (List Nat × List Nat)) :
    List SYBFileInfo → List Nat → List Nat → Option (List Nat)
  | [], _, out => some out
  | curFI :: rest, buffer, out =>
    match copyFile curFI.fileSize ⟨openInput dir curFI.fileName, buffer, out⟩ with
    | none => none
    | some st => writeContents dir rest st.buffer st.output

/-- Everything `PackFiles` depends on. `entries` is the input directory in the order
`directory_iterator` enumerates it. -/
structure PackEnv where
  /-- Whether `inputPath` exists. -/
  inputExists : Bool
  /-- Whether `inputPath` is a directory. -/
  inputIsDirectory : Bool
  /-- Whether `outputPath` exists. -/
  outputExists : Bool
  /-- Whether `outputPath` is a directory. -/
  outputIsDirectory : Bool
  /-- The files of the input directory (name, content), in enumeration order. -/
  entries : List (List Nat × List Nat)
  /-- What the array `buffer` of line 234 holds before the first read (10240 bytes). -/
  buffer : List Nat

/-- Return code of `PackFiles` and the bytes written to the output file
(`none`: the output file was never opened). -/
structure PackResult where
  code : Nat
  written : Option (List Nat)
  deriving DecidableEq, Repr

/-- `PackFiles`. `none` only when a copy loop of the model ran out of fuel. -/
def PackFiles (env : PackEnv) : Option PackResult :=
  if !env.inputExists then some ⟨1, none⟩
  else if !env.inputIsDirectory then some ⟨1, none⟩
  else if env.outputExists && env.outputIsDirectory then some ⟨1, none⟩
  else
    let fileInfos := sortedFileInfos env.entries
    let out := writeHeader (fileInfoSectionSize env.entries) ++ writeFileInfos fileInfos
    (writeContents env.entries fileInfos env.buffer out).map (fun bytes => ⟨0, some bytes⟩)

/-! ## Definitions used to state and prove the properties -/

/-- Priority class of an extension in the pack order: 0 for `.mp3`, 1 for `.wav`, 2 for
`.jpg`, 3 for every other extension. -/
def extRank (e : List Nat) : Nat :=
  if e = str ".mp3" then 0 else if e = str ".wav" then 1 else if e = str ".jpg" then 2 else 3

/-- The comparator of `PackFiles` on directory entries, through the `SYBFileInfo` built from
each. -/
def entryComp (e1 e2 : List Nat × List Nat) : Bool := sortComp (mkFileInfo e1) (mkFileInfo e2)

/-- The comparator of `PackFiles` on file names, through the `SYBFileInfo` built from each
(the comparator does not read `fileSize`). -/
def nameComp (n1 n2 : List Nat) : Bool := sortComp (mkFileInfo (n1, [])) (mkFileInfo (n2, []))

/-- The directory entries in the order `PackFiles` writes them. -/
def sortedEntries (dir : List (List Nat × List Nat)) : List (List Nat × List Nat) :=
  stable_sort entryComp dir

/-- The four bytes of a little-endian unsigned 32-bit field holding `v`, as the format
description of the specification has it. -/
def specLE32 (v : Nat) : List Nat := [v % 256, v / 256 % 256, v / 65536 % 256, v / 16777216 % 256]

/-- The file-info table of the specification for the files `es` (name, content): for each
file its name bytes, one zero byte and its size as a little-endian 32-bit field. -/
def specTable (es : List (List Nat × List Nat)) : List Nat :=
  (es.map (fun e => e.1 ++ [0] ++ specLE32 e.2.length)).flatten

/-- The container of the specification for the files `es` in table order: magic, table size,
file-info table, then the file contents concatenated. -/
def specContainer (tableSize : Nat) (es : List (List Nat × List Nat)) : List Nat :=
  [0x56, 0x58, 0x42, 0x47] ++ specLE32 tableSize ++ specTable es ++
    (es.map (fun e => e.2)).flatten

/-- The sum over the directory entries of `len(name) + 1 + 4`. -/
def specTableSize (dir : List (List Nat × List Nat)) : Nat :=
  (dir.map (fun e => e.1.length + 1 + 4)).sum

/-- The body of the parser loop applied to the bytes `bs` in turn (`none`: a failed
assertion). -/
def parseBytes : ParserState → List Nat → Option ParserState
  | st, [] => some st
  | st, b :: bs =>
    match parseByte st b with
    | none => none
    | some st1 => parseBytes st1 bs

/-- What the parser loop of `UnpackFiles` ends with on the input file of `env`, in a run that
passes the magic check: the first read takes the magic, the second the table size, then the
loop runs (`none`: a failed assertion). -/
def parsedTable (env : UnpackEnv) : Option (ParserState × List Nat × List Nat) :=
  parseLoop
    (decodeFileinfoSize
      (streamRead (streamRead env.input env.buf 4).2 (streamRead env.input env.buf 4).1 4).1)
    parserInit
    (streamRead (streamRead env.input env.buf 4).2 (streamRead env.input env.buf 4).1 4).1
    (streamRead (streamRead env.input env.buf 4).2 (streamRead env.input env.buf 4).1 4).2

/-- The file-info table of the specification read off the bytes `bs`: a name is the run of
non-zero bytes up to its zero terminator, the size the little-endian value of the four bytes
after the terminator; an incomplete last entry yields no entry. `none`: some name field
reaches 128 non-zero bytes. The first argument bounds the number of entries, `bs.length` is
enough. -/
def specParseTable : Nat → List Nat → Option (List SYBFileInfo)
  | 0, _ => some []
  | fuel + 1, bs =>
    if 128 ≤ (bs.takeWhile (fun c => c != 0)).length then none
    else
      match bs.dropWhile (fun c => c != 0) with
      | _ :: b0 :: b1 :: b2 :: b3 :: rest =>
        (specParseTable fuel rest).map
          (fun es => ⟨bs.takeWhile (fun c => c != 0), [],
            b0 + 256 * b1 + 65536 * b2 + 16777216 * b3⟩ :: es)
      | _ => some []

/-- The writes of the extraction of the specification: each entry, in table order, gets the
next `fileSize` bytes of `input` from `offset` on. -/
def payloadWrites (input : List Nat) : Nat → List SYBFileInfo → List (List Nat × List Nat)
  | _, [] => []
  | offset, fi :: rest =>
    (fi.fileName, (input.drop offset).take fi.fileSize) ::
      payloadWrites input (offset + fi.fileSize) rest

theorem stableInsert_perm {α : Type} (comp : α → α → Bool) (x : α) (l : List α) :
    List.Perm (stableInsert comp x l) (x :: l) := by
  induction l with
  | nil => exact List.Perm.refl _
  | cons y ys ih =>
    unfold stableInsert
    split
    · exact (List.Perm.cons y ih).trans (List.Perm.swap x y ys)
    · exact List.Perm.refl _

theorem stable_sort_cons {α : Type} (comp : α → α → Bool) (x : α) (l : List α) :
    stable_sort comp (x :: l) = stableInsert comp x (stable_sort comp l) := rfl

theorem stable_sort_perm {α : Type} (comp : α → α → Bool) (l : List α) :
    List.Perm (stable_sort comp l) l := by
  induction l with
  | nil => exact List.Perm.refl _
  | cons x xs ih =>
    rw [stable_sort_cons]
    exact (stableInsert_perm comp x _).trans (List.Perm.cons x ih)

theorem stableInsert_map {α β : Type} (f : α → β) (c : α → α → Bool) (d : β → β → Bool)
    (h : ∀ a b, c a b = d (f a) (f b)) (x : α) (l : List α) :
    (stableInsert c x l).map f = stableInsert d (f x) (l.map f) := by
  induction l with
  | nil => rfl
  | cons y ys ih =>
    simp only [stableInsert, List.map_cons, h y x]
    split
    · simp [ih]
    · simp

theorem stable_sort_map {α β : Type} (f : α → β) (c : α → α → Bool) (d : β → β → Bool)
    (h : ∀ a b, c a b = d (f a) (f b)) (l : List α) :
    (stable_sort c l).map f = stable_sort d (l.map f) := by
  induction l with
  | nil => rfl
  | cons x xs ih =>
    rw [stable_sort_cons, stableInsert_map f c d h, ih]
    rfl

/-- With a comparator that compares a numeric key, insertion keeps a list ordered by key. -/
theorem stableInsert_sorted {α : Type} (comp : α → α → Bool) (r : α → Nat)
    (h : ∀ a b, comp a b = decide (r a < r b)) (x : α) (l : List α)
    (hl : l.Pairwise (fun a b => r a ≤ r b)) :
    (stableInsert comp x l).Pairwise (fun a b => r a ≤ r b) := by
  induction l with
  | nil => simp [stableInsert]
  | cons y ys ih =>
    rw [List.pairwise_cons] at hl
    unfold stableInsert
    split
    · rename_i hc
      rw [h, decide_eq_true_eq] at hc
      rw [List.pairwise_cons]
      refine ⟨?_, ih hl.2⟩
      intro z hz
      rcases (List.mem_cons.mp ((stableInsert_perm comp x ys).subset hz)) with hzx | hzy
      · subst hzx; exact Nat.le_of_lt hc
      · exact hl.1 z hzy
    · rename_i hc
      rw [h, decide_eq_true_eq, Nat.not_lt] at hc
      rw [List.pairwise_cons]
      refine ⟨?_, List.pairwise_cons.mpr hl⟩
      intro z hz
      rcases List.mem_cons.mp hz with hzy | hzy
      · subst hzy; exact hc
      · exact Nat.le_trans hc (hl.1 z hzy)

theorem stable_sort_sorted {α : Type} (comp : α → α → Bool) (r : α → Nat)
    (h : ∀ a b, comp a b = decide (r a < r b)) (l : List α) :
    (stable_sort comp l).Pairwise (fun a b => r a ≤ r b) := by
  induction l with
  | nil => exact List.Pairwise.nil
  | cons x xs ih =>
    rw [stable_sort_cons]
    exact stableInsert_sorted comp r h x _ ih

/-- Two arrangements of the same elements ordered by a key list the keys identically. -/
theorem sorted_keys_eq {α : Type} (r : α → Nat) (l1 l2 : List α) (hp : List.Perm l1 l2)
    (h1 : l1.Pairwise (fun a b => r a ≤ r b)) (h2 : l2.Pairwise (fun a b => r a ≤ r b)) :
    l1.map r = l2.map r := by
  apply List.eq_of_perm_of_sorted (r := fun a b : Nat => a ≤ b) (hp.map r)
  · exact (List.pairwise_map).mpr h1
  · exact (List.pairwise_map).mpr h2

/-- Two arrangements of the same elements ordered by a key are equal when the keys are
pairwise distinct. -/
theorem sorted_unique {α : Type} (r : α → Nat) (l1 l2 : List α) (hp : List.Perm l1 l2)
    (hd : l1.Pairwise (fun a b => r a ≠ r b))
    (h1 : l1.Pairwise (fun a b => r a ≤ r b)) (h2 : l2.Pairwise (fun a b => r a ≤ r b)) :
    l1 = l2 := by
  have hd2 : l2.Pairwise (fun a b => r a ≠ r b) :=
    (hp.pairwise_iff (fun {a b} (hab : r a ≠ r b) => Ne.symm hab)).mp hd
  have s1 : l1.Pairwise (fun a b => r a < r b) :=
    (h1.and hd).imp (fun {a b} hab => Nat.lt_of_le_of_ne hab.1 hab.2)
  have s2 : l2.Pairwise (fun a b => r a < r b) :=
    (h2.and hd2).imp (fun {a b} hab => Nat.lt_of_le_of_ne hab.1 hab.2)
  haveI : IsAntisymm α (fun a b => r a < r b) :=
    ⟨fun a b hab hba => absurd hab (Nat.lt_asymm hba)⟩
  exact List.eq_of_perm_of_sorted hp s1 s2

/-! ## Lemmas: the comparator -/

theorem charPred_self (c : Nat) : charPred c c = false := by
  simp [charPred]

theorem lexicographical_compare_self (n : List Nat) :
    lexicographical_compare charPred n n = false := by
  induction n with
  | nil => rfl
  | cons c cs ih => simp [lexicographical_compare, charPred_self, ih]

theorem str_mp3_ne_wav : str ".mp3" ≠ str ".wav" := by decide
theorem str_mp3_ne_jpg : str ".mp3" ≠ str ".jpg" := by decide
theorem str_wav_ne_jpg : str ".wav" ≠ str ".jpg" := by decide

/-- The comparator of `PackFiles` compares the priority classes of the extensions. -/
theorem sortComp_eq_rank (fi1 fi2 : SYBFileInfo) :
    sortComp fi1 fi2 = decide (extRank fi1.extension < extRank fi2.extension) := by
  have h1 := str_mp3_ne_wav
  have h2 := str_mp3_ne_jpg
  have h3 := str_wav_ne_jpg
  unfold sortComp extRank
  rw [lexicographical_compare_self]
  by_cases a1 : fi1.extension = str ".mp3" <;> by_cases a2 : fi1.extension = str ".wav" <;>
    by_cases a3 : fi1.extension = str ".jpg" <;> by_cases b1 : fi2.extension = str ".mp3" <;>
    by_cases b2 : fi2.extension = str ".wav" <;> by_cases b3 : fi2.extension = str ".jpg" <;>
    simp_all <;> exact fun hx => absurd hx.symm (by assumption)

/-! ## Lemmas: collection and pack order -/

theorem collectLoop_fst (dir : List (List Nat × List Nat)) (acc : List SYBFileInfo) (sz : Nat) :
    (collectLoop dir acc sz).1 = acc ++ dir.map mkFileInfo := by
  induction dir generalizing acc sz with
  | nil => simp [collectLoop]
  | cons e es ih => simp [collectLoop, ih]

theorem sortedFileInfos_eq (dir : List (List Nat × List Nat)) :
    sortedFileInfos dir = stable_sort sortComp (dir.map mkFileInfo) := by
  simp [sortedFileInfos, collectLoop_fst]

theorem sortedFileInfos_eq_map (dir : List (List Nat × List Nat)) :
    sortedFileInfos dir = (sortedEntries dir).map mkFileInfo := by
  rw [sortedFileInfos_eq, sortedEntries]
  exact (stable_sort_map mkFileInfo entryComp sortComp (fun _ _ => rfl) dir).symm

theorem sortedFileInfos_names (dir : List (List Nat × List Nat)) :
    (sortedFileInfos dir).map (fun fi => fi.fileName) =
      stable_sort nameComp (dir.map (fun e => e.1)) := by
  rw [sortedFileInfos_eq_map, sortedEntries, List.map_map]
  exact stable_sort_map (fun e : List Nat × List Nat => e.1) entryComp nameComp
    (fun _ _ => rfl) dir

theorem sortedFileInfos_perm (dir : List (List Nat × List Nat)) :
    List.Perm (sortedFileInfos dir) (dir.map mkFileInfo) := by
  rw [sortedFileInfos_eq]
  exact stable_sort_perm _ _

theorem sortedFileInfos_sorted (dir : List (List Nat × List Nat)) :
    (sortedFileInfos dir).Pairwise
      (fun a b => extRank a.extension ≤ extRank b.extension) := by
  rw [sortedFileInfos_eq]
  exact stable_sort_sorted sortComp (fun fi => extRank fi.extension) sortComp_eq_rank _

/-! ## Lemmas: chunked copy -/

theorem copyLoop_succ (fuel leftToRead : Nat) (st : CopyState) :
    copyLoop (fuel + 1) leftToRead st =
      if leftToRead - min leftToRead cBufSize > 0 then
        copyLoop fuel (leftToRead - min leftToRead cBufSize)
          ⟨(streamRead st.input st.buffer (min leftToRead cBufSize)).2,
           (streamRead st.input st.buffer (min leftToRead cBufSize)).1,
           st.output ++ (streamRead st.input st.buffer (min leftToRead cBufSize)).1.take
             (min leftToRead cBufSize)⟩
      else some
          ⟨(streamRead st.input st.buffer (min leftToRead cBufSize)).2,
           (streamRead st.input st.buffer (min leftToRead cBufSize)).1,
           st.output ++ (streamRead st.input st.buffer (min leftToRead cBufSize)).1.take
             (min leftToRead cBufSize)⟩ := rfl

/-- The copy loop leaves through its own exit condition when the fuel exceeds the size. -/
theorem copyLoop_total (fuel : Nat) : ∀ (n : Nat) (st : CopyState), n < fuel →
    ∃ st1, copyLoop fuel n st = some st1 := by
  induction fuel with
  | zero => intro n st h; omega
  | succ f ih =>
    intro n st h
    rw [copyLoop_succ]
    split
    · rename_i hpos
      apply ih
      have : 0 < cBufSize := by decide
      omega
    · exact ⟨_, rfl⟩

/-- A read of `k` bytes from an input that holds at least `k` stores exactly those bytes. -/
theorem streamRead_take (s buf : List Nat) (k : Nat) (h : k ≤ s.length) :
    (streamRead s buf k).1.take k = s.take k := by
  unfold streamRead
  have hl : (s.take k).length = k := by simp [List.length_take, h]
  simp only
  rw [List.take_append_of_le_length (by omega)]
  rw [List.take_of_length_le (by omega)]

/-- When the input holds at least `n` bytes, copying `n` bytes appends exactly the next `n`
bytes of the input to the output and leaves the bytes after them unread. -/
theorem copyLoop_exact (fuel : Nat) : ∀ (n : Nat) (st : CopyState), n < fuel →
    n ≤ st.input.length →
    ∃ b, copyLoop fuel n st = some ⟨st.input.drop n, b, st.output ++ st.input.take n⟩ := by
  induction fuel with
  | zero => intro n st h; omega
  | succ f ih =>
    intro n st h hlen
    have hk : min n cBufSize ≤ st.input.length := by omega
    rw [copyLoop_succ, streamRead_take _ _ _ hk]
    have hc : 0 < cBufSize := by decide
    split
    · rename_i hpos
      obtain ⟨b, hb⟩ := ih (n - min n cBufSize)
        ⟨(streamRead st.input st.buffer (min n cBufSize)).2,
         (streamRead st.input st.buffer (min n cBufSize)).1,
         st.output ++ st.input.take (min n cBufSize)⟩ (by omega)
        (by simp only [streamRead, List.length_drop]; omega)
      refine ⟨b, ?_⟩
      rw [hb]
      simp only [streamRead, List.drop_drop, List.append_assoc]
      have e1 : min n cBufSize + (n - min n cBufSize) = n := by omega
      have e2 : st.input.take n =
          st.input.take (min n cBufSize) ++
            (st.input.drop (min n cBufSize)).take (n - min n cBufSize) := by
        rw [← List.take_add, e1]
      rw [e2]
      congr 2
      rw [Nat.add_comm] at e1
      first
        | rw [e1]
        | (rw [Nat.add_comm] at e1; rw [e1])
    · rename_i hpos
      have e : min n cBufSize = n := by omega
      rw [e]
      exact ⟨(streamRead st.input st.buffer n).1, rfl⟩

theorem copyFile_total (n : Nat) (st : CopyState) : ∃ st1, copyFile n st = some st1 :=
  copyLoop_total (n + 1) n st (Nat.lt_succ_self n)

theorem copyFile_exact (n : Nat) (st : CopyState) (h : n ≤ st.input.length) :
    ∃ b, copyFile n st = some ⟨st.input.drop n, b, st.output ++ st.input.take n⟩ :=
  copyLoop_exact (n + 1) n st (Nat.lt_succ_self n) h

/-! ## Lemmas: the container written by PackFiles -/

theorem putU32_eq (v : Nat) :
    putU32 v = [v % 256, v / 256 % 256, v / 65536 % 256, v / 16777216 % 256] := by
  have h : (0xFF : Nat) = 2 ^ 8 - 1 := by decide
  simp only [putU32, h, Nat.and_pow_two_sub_one_eq_mod, Nat.shiftRight_eq_div_pow]
  norm_num

theorem openInput_mem (dir : List (List Nat × List Nat))
    (hn : (dir.map (fun e => e.1)).Nodup) (e : List Nat × List Nat) (he : e ∈ dir) :
    openInput dir e.1 = e.2 := by
  induction dir with
  | nil => cases he
  | cons d ds ih =>
    rw [List.map_cons, List.nodup_cons] at hn
    rcases List.mem_cons.mp he with hd | hd
    · subst hd
      simp [openInput, List.find?]
    · have hne : d.1 ≠ e.1 := by
        intro heq
        apply hn.1
        rw [heq]
        exact List.mem_map_of_mem (fun e => e.1) hd
      have := ih hn.2 hd
      simp only [openInput, List.find?] at this ⊢
      have hb : (d.1 == e.1) = false := by simpa using hne
      rw [hb]
      exact this

/-- The file content section: each file contributes its first `fileSize` bytes. -/
theorem writeContents_eq (dir : List (List Nat × List Nat))
    (hn : (dir.map (fun e => e.1)).Nodup) :
    ∀ (es : List (List Nat × List Nat)) (buffer out : List Nat), (∀ e ∈ es, e ∈ dir) →
      writeContents dir (es.map mkFileInfo) buffer out =
        some (out ++ (es.map (fun e => e.2.take (u32 e.2.length))).flatten) := by
  intro es
  induction es with
  | nil => intro buffer out _; simp [writeContents]
  | cons e es ih =>
    intro buffer out hmem
    have he : e ∈ dir := hmem e (List.mem_cons_self _ _)
    have hle : u32 e.2.length ≤ e.2.length := Nat.mod_le _ _
    obtain ⟨b, hb⟩ := copyFile_exact (u32 e.2.length) ⟨e.2, buffer, out⟩ hle
    simp only [List.map_cons, writeContents, mkFileInfo, openInput_mem dir hn e he, hb]
    have := ih b (out ++ e.2.take (u32 e.2.length))
      (fun x hx => hmem x (List.mem_cons_of_mem _ hx))
    simp only [mkFileInfo] at this
    rw [this]
    simp

/-- The bytes `PackFiles` writes, for a directory with pairwise distinct names. -/
theorem PackFiles_written (env : PackEnv) (h1 : env.inputExists = true)
    (h2 : env.inputIsDirectory = true)
    (h3 : (env.outputExists && env.outputIsDirectory) = false)
    (hn : (env.entries.map (fun e => e.1)).Nodup) :
    PackFiles env = some ⟨0, some (writeHeader (fileInfoSectionSize env.entries) ++
      writeFileInfos (sortedFileInfos env.entries) ++
      ((sortedEntries env.entries).map (fun e => e.2.take (u32 e.2.length))).flatten)⟩ := by
  have hmem : ∀ e ∈ sortedEntries env.entries, e ∈ env.entries :=
    fun e he => (stable_sort_perm entryComp env.entries).subset he
  have hw := writeContents_eq env.entries hn (sortedEntries env.entries) env.buffer
    (writeHeader (fileInfoSectionSize env.entries) ++
      writeFileInfos (sortedFileInfos env.entries)) hmem
  rw [← sortedFileInfos_eq_map] at hw
  simp [PackFiles, h1, h2, h3, hw]

theorem collectLoop_snd (dir : List (List Nat × List Nat)) :
    ∀ (acc : List SYBFileInfo) (sz : Nat), sz + specTableSize dir < 4294967296 →
      (collectLoop dir acc sz).2 = sz + specTableSize dir := by
  induction dir with
  | nil => intro acc sz _; simp [collectLoop, specTableSize]
  | cons e es ih =>
    intro acc sz h
    have hs : specTableSize (e :: es) = (e.1.length + 1 + 4) + specTableSize es := by
      simp [specTableSize]
    rw [hs] at h ⊢
    have hstep : u32 (sz + u32 (u32 (u32 (mkFileInfo e).fileName.length + 1) + 4)) =
        sz + (e.1.length + 1 + 4) := by
      simp only [u32, mkFileInfo]
      omega
    simp only [collectLoop, hstep]
    rw [ih _ _ (by omega)]
    omega

theorem writeFileInfos_length (fis : List SYBFileInfo) :
    (writeFileInfos fis).length = (fis.map (fun fi => fi.fileName.length + 1 + 4)).sum := by
  induction fis with
  | nil => rfl
  | cons fi rest ih =>
    simp only [writeFileInfos, writeFileInfo, putU32, List.length_append, ih, List.map_cons,
      List.sum_cons, List.length_cons, List.length_nil]

theorem writeFileInfos_sorted_length (dir : List (List Nat × List Nat)) :
    (writeFileInfos (sortedFileInfos dir)).length = specTableSize dir := by
  rw [writeFileInfos_length]
  have hp := (sortedFileInfos_perm dir).map (fun fi => fi.fileName.length + 1 + 4)
  rw [hp.sum_eq, List.map_map]
  rfl

theorem writeFileInfos_spec (es : List (List Nat × List Nat))
    (h : ∀ e ∈ es, e.2.length < 4294967296) :
    writeFileInfos (es.map mkFileInfo) = specTable es := by
  induction es with
  | nil => rfl
  | cons e rest ih =>
    have he : u32 e.2.length = e.2.length := Nat.mod_eq_of_lt (h e (List.mem_cons_self _ _))
    have ih1 := ih (fun x hx => h x (List.mem_cons_of_mem _ hx))
    simp only [specTable] at ih1
    simp only [List.map_cons, writeFileInfos, writeFileInfo, mkFileInfo, he, putU32_eq,
      specTable, List.flatten_cons]
    rw [ih1]
    rfl

theorem copyLoop_output (fuel : Nat) : ∀ (n : Nat) (st st1 : CopyState),
    copyLoop fuel n st = some st1 → ∃ w, st1.output = st.output ++ w := by
  induction fuel with
  | zero => intro n st st1 h; simp [copyLoop] at h
  | succ f ih =>
    intro n st st1 h
    rw [copyLoop_succ] at h
    split at h
    · obtain ⟨w, hw⟩ := ih _ _ _ h
      exact ⟨_, by rw [hw, List.append_assoc]⟩
    · cases h
      exact ⟨_, rfl⟩

/-- The file content section ends, and only appends to what is already written. -/
theorem writeContents_total (dir : List (List Nat × List Nat)) :
    ∀ (fis : List SYBFileInfo) (buffer out : List Nat),
      ∃ body, writeContents dir fis buffer out = some (out ++ body) := by
  intro fis
  induction fis with
  | nil => intro buffer out; exact ⟨[], by simp [writeContents]⟩
  | cons fi rest ih =>
    intro buffer out
    obtain ⟨st1, h1⟩ := copyFile_total fi.fileSize ⟨openInput dir fi.fileName, buffer, out⟩
    obtain ⟨w, hw⟩ := copyLoop_output _ _ _ _ h1
    obtain ⟨body, hb⟩ := ih st1.buffer st1.output
    refine ⟨w ++ body, ?_⟩
    simp only [writeContents, h1, hb]
    rw [hw, List.append_assoc]

/-- The container written for a directory that holds one file. -/
theorem PackFiles_single (name c buffer : List Nat) :
    PackFiles ⟨true, true, false, false, [(name, c)], buffer⟩ =
      some ⟨0, some (writeHeader (u32 (u32 (u32 (u32 name.length + 1) + 4))) ++
        (name ++ [0] ++ putU32 (u32 c.length)) ++ c.take (u32 c.length))⟩ := by
  rw [PackFiles_written ⟨true, true, false, false, [(name, c)], buffer⟩ rfl rfl rfl (by simp)]
  simp [fileInfoSectionSize, sortedFileInfos, sortedEntries, collectLoop, stable_sort,
    stableInsert, mkFileInfo, writeFileInfos, writeFileInfo]

/-- A single file `x.bin` of exactly `2^32` bytes is packed without any content byte. -/
theorem PackFiles_oversized (c : List Nat) (hl : c.length = 4294967296) :
    PackFiles ⟨true, true, false, false, [(str "x.bin", c)], []⟩ =
      some ⟨0, some [0x56, 0x58, 0x42, 0x47, 0x0A, 0, 0, 0, 0x78, 0x2E, 0x62, 0x69, 0x6E, 0,
        0, 0, 0, 0]⟩ := by
  have hu : u32 c.length = 0 := by rw [hl]; rfl
  have hn : (str "x.bin").length = 5 := by decide
  rw [PackFiles_single, hu, hn]
  rw [List.take_zero]
  decide

theorem PackFiles_oversized_ne (c : List Nat) (hl : c.length = 4294967296) :
    PackFiles ⟨true, true, false, false, [(str "x.bin", c)], []⟩ ≠
      some ⟨0, some (specContainer (fileInfoSectionSize [(str "x.bin", c)])
        (sortedEntries [(str "x.bin", c)]))⟩ := by
  have hn : (str "x.bin").length = 5 := by decide
  rw [PackFiles_oversized c hl]
  intro h
  have h2 := congrArg (fun r => (r.bind (fun x => x.written)).map List.length) h
  simp [specContainer, specTable, sortedEntries, stable_sort, stableInsert, specLE32, hl,
    hn] at h2

/-! ## Lemmas: the file info section parser -/

/-- Over an input that holds the bytes `bs`, the parser loop run for `bs.length` iterations
applies the loop body to these bytes in turn and leaves the rest of the input unread. -/
theorem parseLoop_of_parseBytes (bs : List Nat) : ∀ (st st1 : ParserState) (buf s : List Nat),
    parseBytes st bs = some st1 →
    ∃ buf1, parseLoop bs.length st buf (bs ++ s) = some (st1, buf1, s) := by
  induction bs with
  | nil =>
    intro st st1 buf s h
    simp only [parseBytes, Option.some.injEq] at h
    exact ⟨buf, by simp [parseLoop, h]⟩
  | cons b bs ih =>
    intro st st1 buf s h
    simp only [parseBytes] at h
    cases hb : parseByte st b with
    | none => rw [hb] at h; cases h
    | some st2 =>
      rw [hb] at h
      obtain ⟨buf1, h1⟩ := ih st2 st1 (b :: buf.drop 1) s h
      refine ⟨buf1, ?_⟩
      simp only [List.length_cons, parseLoop, streamRead, List.cons_append, List.take_succ_cons,
        List.take_zero, List.length_singleton, List.getD_cons_zero, hb,
        List.drop_succ_cons, List.drop_zero]
      exact h1

theorem parseBytes_append (a b : List Nat) : ∀ (st : ParserState),
    parseBytes st (a ++ b) = (parseBytes st a).bind (fun st1 => parseBytes st1 b) := by
  induction a with
  | nil => intro st; rfl
  | cons x xs ih =>
    intro st
    simp only [List.cons_append, parseBytes]
    cases parseByte st x with
    | none => rfl
    | some st1 => exact ih st1

theorem set_length_append {α : Type} (pre : List α) (x y : α) (rest : List α) :
    (pre ++ x :: rest).set pre.length y = pre ++ y :: rest := by
  induction pre with
  | nil => rfl
  | cons p ps ih => simp [List.set, ih]

theorem cString_append_zero (nm t : List Nat) (h : ∀ c ∈ nm, c ≠ 0) :
    cString (nm ++ 0 :: t) = nm := by
  induction nm with
  | nil => simp [cString]
  | cons c cs ih =>
    have hc : c ≠ 0 := h c (List.mem_cons_self _ _)
    have := ih (fun x hx => h x (List.mem_cons_of_mem _ hx))
    simp only [cString] at this ⊢
    have hb : (c != 0) = true := by simpa using hc
    rw [List.cons_append, List.takeWhile_cons, hb]
    simp only [if_true]
    rw [this]

/-- Name bytes: in state `FileName` the parser stores the non-zero bytes `nm` in
`curFileName` from index `curIdx` on, as long as the index stays below 128. -/
theorem parseBytes_name (nm : List Nat) : ∀ (st : ParserState) (pre rest : List Nat),
    st.curFIField = SYBFileInfoField.FileName → st.curIdx = pre.length →
    st.curFileName = pre ++ rest → nm.length < rest.length →
    pre.length + nm.length < 128 → (∀ c ∈ nm, c ≠ 0) →
    parseBytes st nm = some { st with curFileName := pre ++ nm ++ rest.drop nm.length,
                                      curIdx := pre.length + nm.length } := by
  induction nm with
  | nil =>
    intro st pre rest _ hidx hbuf _ _ _
    simp only [parseBytes, List.append_nil, List.drop_zero, List.length_nil, Nat.add_zero,
      ← hidx, ← hbuf]
  | cons c cs ih =>
    intro st pre rest hf hidx hbuf hlen hfit hnz
    have hc : c ≠ 0 := hnz c (List.mem_cons_self _ _)
    simp only [List.length_cons] at hlen hfit
    cases rest with
    | nil => simp at hlen
    | cons r rs =>
      simp only [List.length_cons] at hlen
      have hmod : (pre.length + 1) % 256 = pre.length + 1 := Nat.mod_eq_of_lt (by omega)
      have hstep : parseByte st c = some { st with curFileName := (pre ++ [c]) ++ rs,
                                                    curIdx := (pre ++ [c]).length } := by
        simp only [parseByte, hf, hidx, hbuf, hmod, set_length_append, cMaxFileNameSize]
        simp [hc]
        omega
      simp only [parseBytes, hstep]
      rw [ih { st with curFileName := (pre ++ [c]) ++ rs, curIdx := (pre ++ [c]).length }
        (pre ++ [c]) rs hf rfl rfl (by omega) (by simp; omega)
        (fun x hx => hnz x (List.mem_cons_of_mem _ hx))]
      simp [Nat.add_assoc, Nat.add_comm 1]

theorem or_mul_pow (a b i : Nat) (h : a < 2 ^ i) : a ||| b * 2 ^ i = a + b * 2 ^ i := by
  rw [Nat.or_comm, Nat.mul_comm, ← Nat.mul_add_lt_is_or h, Nat.add_comm]

theorem shl32_byte (b k : Nat) (h : b * 2 ^ k < 4294967296) : shl32 b k = b * 2 ^ k := by
  rw [shl32, u32, Nat.shiftLeft_eq, Nat.mod_eq_of_lt h]

/-- The accumulation of line 86 over four bytes yields their little-endian value. -/
theorem size_accumulate (b0 b1 b2 b3 : Nat) (h0 : b0 < 256) (h1 : b1 < 256) (h2 : b2 < 256)
    (h3 : b3 < 256) :
    u32 (u32 (u32 (u32 (0 ||| shl32 b0 (8 * 0)) ||| shl32 b1 (8 * 1)) ||| shl32 b2 (8 * 2)) |||
      shl32 b3 (8 * 3)) = b0 + 256 * b1 + 65536 * b2 + 16777216 * b3 := by
  rw [shl32_byte b0 (8 * 0) (by norm_num; omega), shl32_byte b1 (8 * 1) (by norm_num; omega),
    shl32_byte b2 (8 * 2) (by norm_num; omega), shl32_byte b3 (8 * 3) (by norm_num; omega)]
  have e0 : u32 (0 ||| b0 * 2 ^ (8 * 0)) = b0 := by
    rw [Nat.zero_or]; simp only [u32]; omega
  rw [e0]
  have e1 : u32 (b0 ||| b1 * 2 ^ (8 * 1)) = b0 + b1 * 256 := by
    rw [or_mul_pow b0 b1 (8 * 1) (by norm_num; omega)]; simp only [u32]; omega
  rw [e1]
  have e2 : u32 (b0 + b1 * 256 ||| b2 * 2 ^ (8 * 2)) = b0 + b1 * 256 + b2 * 65536 := by
    rw [or_mul_pow _ b2 (8 * 2) (by norm_num; omega)]; simp only [u32]; omega
  rw [e2]
  have e3 : u32 (b0 + b1 * 256 + b2 * 65536 ||| b3 * 2 ^ (8 * 3)) =
      b0 + b1 * 256 + b2 * 65536 + b3 * 16777216 := by
    rw [or_mul_pow _ b3 (8 * 3) (by norm_num; omega)]; simp only [u32]; omega
  rw [e3]
  omega

/-- Size bytes: in state `FileSize` with index 0 and accumulator 0 the parser turns four
bytes into their little-endian value, emits the entry and returns to state `FileName`. -/
theorem parseBytes_size (st : ParserState) (b0 b1 b2 b3 : Nat)
    (hf : st.curFIField = SYBFileInfoField.FileSize) (hidx : st.curIdx = 0)
    (hsz : st.curFileSize = 0)
    (h0 : b0 < 256) (h1 : b1 < 256) (h2 : b2 < 256) (h3 : b3 < 256) :
    parseBytes st [b0, b1, b2, b3] =
      some { st with curIdx := 0, curFIField := SYBFileInfoField.FileName,
                     fileInfos := st.fileInfos ++
                       [⟨cString st.curFileName, [],
                         b0 + 256 * b1 + 65536 * b2 + 16777216 * b3⟩],
                     curFileSize := 0 } := by
  have := size_accumulate b0 b1 b2 b3 h0 h1 h2 h3
  simp only [parseBytes, parseByte, hf, hidx, hsz]
  norm_num
  simpa using this

/-- One table entry: from an entry boundary the parser turns the bytes written for an entry
into that entry and stops on the next entry boundary. -/
theorem parseBytes_entry (st : ParserState) (fi : SYBFileInfo)
    (hf : st.curFIField = SYBFileInfoField.FileName) (hidx : st.curIdx = 0)
    (hsz : st.curFileSize = 0) (hbuf : st.curFileName.length = 128)
    (hnz : ∀ c ∈ fi.fileName, c ≠ 0) (hlen : fi.fileName.length ≤ 127)
    (hv : fi.fileSize < 4294967296) :
    ∃ nb : List Nat, nb.length = 128 ∧
      parseBytes st (writeFileInfo fi) =
        some ⟨st.fileInfos ++ [⟨fi.fileName, [], fi.fileSize⟩], nb, 0, 0,
          SYBFileInfoField.FileName⟩ := by
  have hname := parseBytes_name fi.fileName st [] st.curFileName hf (by simp [hidx]) rfl
    (by omega) (by simp; omega) hnz
  cases hd : st.curFileName.drop fi.fileName.length with
  | nil =>
    have := congrArg List.length hd
    simp only [List.length_drop, List.length_nil] at this
    omega
  | cons x t =>
    have hdl := congrArg List.length hd
    simp only [List.length_drop, List.length_cons] at hdl
    refine ⟨fi.fileName ++ 0 :: t, by simp only [List.length_append, List.length_cons]; omega, ?_⟩
    rw [hd] at hname
    simp only [List.nil_append, List.length_nil, Nat.zero_add] at hname
    have hzero : parseByte
        { st with curFileName := fi.fileName ++ x :: t, curIdx := fi.fileName.length } 0 =
        some { st with curFileName := fi.fileName ++ 0 :: t, curIdx := 0,
                       curFIField := SYBFileInfoField.FileSize } := by
      simp [parseByte, hf, set_length_append]
    have hsize := parseBytes_size
      { st with curFileName := fi.fileName ++ 0 :: t, curIdx := 0,
                curFIField := SYBFileInfoField.FileSize }
      (fi.fileSize % 256) (fi.fileSize / 256 % 256) (fi.fileSize / 65536 % 256)
      (fi.fileSize / 16777216 % 256) rfl rfl hsz
      (Nat.mod_lt _ (by decide)) (Nat.mod_lt _ (by decide)) (Nat.mod_lt _ (by decide))
      (Nat.mod_lt _ (by decide))
    have hval : fi.fileSize % 256 + 256 * (fi.fileSize / 256 % 256) +
        65536 * (fi.fileSize / 65536 % 256) + 16777216 * (fi.fileSize / 16777216 % 256) =
        fi.fileSize := by omega
    rw [hval] at hsize
    simp only [cString_append_zero fi.fileName t hnz] at hsize
    rw [writeFileInfo, putU32_eq, List.append_assoc, parseBytes_append, hname]
    simp only [Option.bind, List.singleton_append, parseBytes, hzero]
    exact hsize

/-- The whole table: from the initial state of an entry boundary the parser turns the bytes
written for a list of entries into these entries, in order. -/
theorem parseBytes_table (fis : List SYBFileInfo) :
    ∀ (st : ParserState), st.curFIField = SYBFileInfoField.FileName → st.curIdx = 0 →
      st.curFileSize = 0 → st.curFileName.length = 128 →
      (∀ fi ∈ fis, (∀ c ∈ fi.fileName, c ≠ 0) ∧ fi.fileName.length ≤ 127 ∧
        fi.fileSize < 4294967296) →
      ∃ nb : List Nat, nb.length = 128 ∧
        parseBytes st (writeFileInfos fis) =
          some ⟨st.fileInfos ++ fis.map (fun fi => ⟨fi.fileName, [], fi.fileSize⟩), nb, 0, 0,
            SYBFileInfoField.FileName⟩ := by
  induction fis with
  | nil =>
    intro st hf hidx hsz hbuf _
    refine ⟨st.curFileName, hbuf, ?_⟩
    cases st
    simp only at hf hidx hsz
    simp only [writeFileInfos, parseBytes, List.map_nil, List.append_nil, hf, hidx, hsz]
  | cons fi rest ih =>
    intro st hf hidx hsz hbuf hwf
    obtain ⟨h1, h2, h3⟩ := hwf fi (List.mem_cons_self _ _)
    obtain ⟨nb, hnb, he⟩ := parseBytes_entry st fi hf hidx hsz hbuf h1 h2 h3
    obtain ⟨nb2, hnb2, hr⟩ := ih
      ⟨st.fileInfos ++ [⟨fi.fileName, [], fi.fileSize⟩], nb, 0, 0, SYBFileInfoField.FileName⟩
      rfl rfl rfl hnb (fun x hx => hwf x (List.mem_cons_of_mem _ hx))
    refine ⟨nb2, hnb2, ?_⟩
    rw [writeFileInfos, parseBytes_append, he]
    simp only [Option.bind, hr, List.map_cons, List.append_assoc, List.singleton_append]

/-! ## Lemmas: UnpackFiles -/

theorem charToInt_eq_iff (b m : Nat) (hm : m < 128) : charToInt b = m ↔ b = m := by
  unfold charToInt
  split <;> omega

/-- The magic check fails exactly when the four bytes read are not `56 58 42 47`. -/
theorem wrongMagic_iff (a b c d : Nat) (t : List Nat) :
    wrongMagic (a :: b :: c :: d :: t) = true ↔ [a, b, c, d] ≠ [0x56, 0x58, 0x42, 0x47] := by
  have ha := charToInt_eq_iff a 0x56 (by decide)
  have hb := charToInt_eq_iff b 0x58 (by decide)
  have hc := charToInt_eq_iff c 0x42 (by decide)
  have hd := charToInt_eq_iff d 0x47 (by decide)
  simp only [wrongMagic, List.getD_cons_zero, List.getD_cons_succ, Bool.or_eq_true,
    bne_iff_ne, ne_eq, ha, hb, hc, hd, List.cons.injEq, and_true, not_and]
  tauto

theorem streamRead_four (a b c d : Nat) (t buf : List Nat) :
    streamRead (a :: b :: c :: d :: t) buf 4 = (a :: b :: c :: d :: buf.drop 4, t) := by
  simp [streamRead]

/-- The extraction loop ends. -/
theorem extractLoop_total (fis : List SYBFileInfo) :
    ∀ (input buffer : List Nat) (files : List (List Nat × List Nat)),
      ∃ files1, extractLoop fis input buffer files = some files1 := by
  induction fis with
  | nil => intro input buffer files; exact ⟨files, rfl⟩
  | cons fi rest ih =>
    intro input buffer files
    obtain ⟨st1, h1⟩ := copyFile_total fi.fileSize ⟨input, buffer, []⟩
    obtain ⟨files1, h2⟩ := ih st1.input st1.buffer (putFile files fi.fileName st1.output)
    exact ⟨files1, by simp only [extractLoop, h1, h2]⟩

/-- A run that passes the path checks and the magic check ends as the parser and the
extraction decide. -/
theorem UnpackFiles_of_magic (env : UnpackEnv) (h1 : env.inputExists = true)
    (h2 : env.inputExtension = str ".syb" ∨ env.inputExtension = str ".SYB")
    (h3 : wrongMagic (streamRead env.input env.buf 4).1 = false) :
    UnpackFiles env =
      match parsedTable env with
      | none => some (Outcome.assertFailed env.output)
      | some (st, _, s1) => extractFiles env st.fileInfos s1 := by
  have hext : (env.inputExtension != str ".syb" && env.inputExtension != str ".SYB") = false := by
    rcases h2 with h | h <;> simp [h]
  simp only [UnpackFiles, h1, hext, h3, unpackBody, parsedTable]
  simp

/-- Line 52 yields the little-endian value of the four bytes when the first three are below
`0x80` (their `char` values are not negative). -/
theorem decodeFileinfoSize_of_small (b0 b1 b2 b3 : Nat) (h0 : b0 < 128) (h1 : b1 < 128)
    (h2 : b2 < 128) (h3 : b3 < 256) :
    decodeFileinfoSize [b0, b1, b2, b3] = b0 + 256 * b1 + 65536 * b2 + 16777216 * b3 := by
  have e1 : shl32 (charToInt b1) 8 = b1 * 2 ^ 8 := by
    rw [charToInt, if_pos h1]; exact shl32_byte b1 8 (by norm_num; omega)
  have e2 : shl32 (charToInt b2) 16 = b2 * 2 ^ 16 := by
    rw [charToInt, if_pos h2]; exact shl32_byte b2 16 (by norm_num; omega)
  have e3 : shl32 (charToInt b3) 24 = b3 * 2 ^ 24 := by
    rw [shl32, u32, Nat.shiftLeft_eq, charToInt]
    split <;> norm_num <;> omega
  have e0 : charToInt b0 = b0 := by rw [charToInt, if_pos h0]
  simp only [decodeFileinfoSize, List.getD_cons_zero, List.getD_cons_succ, e0, e1, e2, e3]
  rw [or_mul_pow b0 b1 8 (by norm_num; omega),
    or_mul_pow (b0 + b1 * 2 ^ 8) b2 16 (by norm_num; omega),
    or_mul_pow (b0 + b1 * 2 ^ 8 + b2 * 2 ^ 16) b3 24 (by norm_num; omega)]
  simp only [u32]
  norm_num
  omega

/-! ## Lemmas: unpacking a packed directory -/

theorem putFile_new (files : List (List Nat × List Nat)) (name data : List Nat)
    (h : name ∉ files.map (fun f => f.1)) : putFile files name data = files ++ [(name, data)] := by
  have hany : files.any (fun f => f.1 == name) = false := by
    rw [Bool.eq_false_iff]
    intro hc
    rw [List.any_eq_true] at hc
    obtain ⟨f, hf, hfe⟩ := hc
    apply h
    rw [← (beq_iff_eq).mp hfe]
    exact List.mem_map_of_mem (fun f => f.1) hf
  simp only [putFile, hany]
  simp

/-- The extraction loop over entries whose contents follow each other in the input writes
one file per entry, named and filled as the entry says, after the files already there. -/
theorem extractLoop_exact (es : List (List Nat × List Nat)) :
    ∀ (tail buffer : List Nat) (files : List (List Nat × List Nat)),
      ((files ++ es).map (fun f => f.1)).Nodup →
      extractLoop (es.map (fun e => ⟨e.1, [], e.2.length⟩))
        ((es.map (fun e => e.2)).flatten ++ tail) buffer files = some (files ++ es) := by
  induction es with
  | nil => intro tail buffer files _; simp [extractLoop]
  | cons e rest ih =>
    intro tail buffer files hn
    have hlen : e.2.length ≤
        (⟨e.2 ++ ((rest.map (fun e => e.2)).flatten ++ tail), buffer, []⟩ :
          CopyState).input.length := by
      simp only [List.length_append]; omega
    obtain ⟨b, hb⟩ := copyFile_exact e.2.length
      ⟨e.2 ++ ((rest.map (fun e => e.2)).flatten ++ tail), buffer, []⟩ hlen
    have hnew : e.1 ∉ files.map (fun f => f.1) := by
      rw [List.map_append, List.map_cons] at hn
      have := (List.nodup_append.mp hn).2.2
      intro hc
      exact this hc (List.mem_cons_self _ _)
    have hn2 : (((files ++ [e]) ++ rest).map (fun f => f.1)).Nodup := by
      simpa [List.append_assoc] using hn
    have := ih tail b (files ++ [e]) hn2
    simp only [List.map_cons, List.flatten_cons, List.append_assoc, extractLoop, hb,
      List.drop_left, List.take_left, List.nil_append, putFile_new files e.1 e.2 hnew]
    simpa [List.append_assoc] using this

/-- Round trip when the header is decoded right: for a directory of files with pairwise
distinct names without zero byte of at most 127 bytes, contents shorter than `2^32` bytes
and a table size below `2^32` whose three low bytes are below `0x80`, unpacking what
`PackFiles` wrote into an absent output directory returns 0 and leaves exactly the files of
the directory, in table order. -/
theorem round_trip_of_small_table (dir : List (List Nat × List Nat))
    (buf buffer packBuffer : List Nat)
    (hn : (dir.map (fun e => e.1)).Nodup)
    (hnames : ∀ e ∈ dir, (∀ c ∈ e.1, c ≠ 0) ∧ e.1.length ≤ 127)
    (hsizes : ∀ e ∈ dir, e.2.length < 4294967296)
    (hsum : specTableSize dir < 4294967296)
    (hsmall : specTableSize dir % 256 < 128 ∧ specTableSize dir / 256 % 256 < 128 ∧
      specTableSize dir / 65536 % 256 < 128) :
    ∃ container,
      PackFiles ⟨true, true, false, false, dir, packBuffer⟩ = some ⟨0, some container⟩ ∧
      UnpackFiles ⟨true, str ".syb", container, PathState.absent,
          CreateDirectoryResult.created, buf, buffer⟩ =
        some (Outcome.returned 0 (PathState.directory (sortedEntries dir))) := by
  have hperm : List.Perm (sortedEntries dir) dir := stable_sort_perm entryComp dir
  have hmem : ∀ e ∈ sortedEntries dir, e ∈ dir := fun e he => hperm.subset he
  have hs : fileInfoSectionSize dir = specTableSize dir := by
    have := collectLoop_snd dir [] 0 (by omega)
    simpa [fileInfoSectionSize] using this
  have hbody : (sortedEntries dir).map (fun e => e.2.take (u32 e.2.length)) =
      (sortedEntries dir).map (fun e => e.2) := by
    apply List.map_congr_left
    intro e he
    have : u32 e.2.length = e.2.length := Nat.mod_eq_of_lt (hsizes e (hmem e he))
    rw [this, List.take_length]
  have hpack := PackFiles_written ⟨true, true, false, false, dir, packBuffer⟩ rfl rfl rfl hn
  simp only [hs, hbody] at hpack
  refine ⟨_, hpack, ?_⟩
  -- the table, as the parser sees it
  have hwf : ∀ fi ∈ sortedFileInfos dir, (∀ c ∈ fi.fileName, c ≠ 0) ∧
      fi.fileName.length ≤ 127 ∧ fi.fileSize < 4294967296 := by
    intro fi hfi
    rw [sortedFileInfos_eq_map] at hfi
    obtain ⟨e, he, rfl⟩ := List.mem_map.mp hfi
    exact ⟨(hnames e (hmem e he)).1, (hnames e (hmem e he)).2, Nat.mod_lt _ (by decide)⟩
  obtain ⟨nb, _, hp⟩ := parseBytes_table (sortedFileInfos dir) parserInit rfl rfl rfl
    (List.length_replicate _ _) hwf
  have hinfos : (sortedFileInfos dir).map (fun fi => (⟨fi.fileName, [], fi.fileSize⟩ : SYBFileInfo)) =
      (sortedEntries dir).map (fun e => ⟨e.1, [], e.2.length⟩) := by
    rw [sortedFileInfos_eq_map, List.map_map]
    apply List.map_congr_left
    intro e he
    have : u32 e.2.length = e.2.length := Nat.mod_eq_of_lt (hsizes e (hmem e he))
    simp [mkFileInfo, this]
  have hdec : decodeFileinfoSize (specTableSize dir % 256 :: specTableSize dir / 256 % 256 ::
      specTableSize dir / 65536 % 256 :: specTableSize dir / 16777216 % 256 ::
      List.drop 4 (0x56 :: 0x58 :: 0x42 :: 0x47 :: List.drop 4 buf)) =
      (writeFileInfos (sortedFileInfos dir)).length := by
    have := decodeFileinfoSize_of_small _ _ _ (specTableSize dir / 16777216 % 256)
      hsmall.1 hsmall.2.1 hsmall.2.2 (Nat.mod_lt _ (by decide))
    rw [writeFileInfos_sorted_length]
    simp only [decodeFileinfoSize, List.getD_cons_zero, List.getD_cons_succ] at this ⊢
    rw [this]
    omega
  obtain ⟨buf1, hl⟩ := parseLoop_of_parseBytes (writeFileInfos (sortedFileInfos dir))
    parserInit _
    (specTableSize dir % 256 :: specTableSize dir / 256 % 256 ::
      specTableSize dir / 65536 % 256 :: specTableSize dir / 16777216 % 256 ::
      List.drop 4 (0x56 :: 0x58 :: 0x42 :: 0x47 :: List.drop 4 buf))
    ((sortedEntries dir).map (fun e => e.2)).flatten hp
  have hex := extractLoop_exact (sortedEntries dir) [] buffer []
    (by simpa using (hperm.map (fun e => e.1)).nodup_iff.mpr hn)
  have hmagic : wrongMagic (streamRead
      (writeHeader (specTableSize dir) ++ writeFileInfos (sortedFileInfos dir) ++
        ((sortedEntries dir).map (fun e => e.2)).flatten) buf 4).1 = false := by
    simp only [writeHeader, List.cons_append, List.nil_append, streamRead_four]
    cases hx : wrongMagic (0x56 :: 0x58 :: 0x42 :: 0x47 :: List.drop 4 buf) with
    | false => rfl
    | true => exact absurd rfl ((wrongMagic_iff 0x56 0x58 0x42 0x47 (buf.drop 4)).mp hx)
  rw [UnpackFiles_of_magic _ rfl (Or.inl rfl) hmagic]
  have hpt : parsedTable ⟨true, str ".syb",
      writeHeader (specTableSize dir) ++ writeFileInfos (sortedFileInfos dir) ++
        ((sortedEntries dir).map (fun e => e.2)).flatten,
      PathState.absent, CreateDirectoryResult.created, buf, buffer⟩ =
      some (⟨parserInit.fileInfos ++ (sortedFileInfos dir).map
          (fun fi => ⟨fi.fileName, [], fi.fileSize⟩), nb, 0, 0, SYBFileInfoField.FileName⟩,
        buf1, ((sortedEntries dir).map (fun e => e.2)).flatten) := by
    simp only [parsedTable, writeHeader, putU32_eq, List.cons_append, List.nil_append,
      streamRead_four, List.append_assoc]
    rw [hdec]
    exact hl
  rw [hpt]
  simp only [List.append_nil, List.nil_append] at hex
  simp [extractFiles, parserInit, hinfos, hex]

/-! ## Lemmas: stability of the sort, order properties of the comparator -/

theorem stableInsert_sublist {α : Type} (comp : α → α → Bool) (x : α) (l : List α) :
    List.Sublist l (stableInsert comp x l) := by
  induction l with
  | nil => exact List.nil_sublist _
  | cons y ys ih =>
    unfold stableInsert
    split
    · exact List.Sublist.cons₂ y ih
    · exact List.Sublist.cons x (List.Sublist.refl _)

/-- An inserted element stays in front of every element of the list that is not less than
it. -/
theorem stableInsert_before {α : Type} (comp : α → α → Bool) (x b : α) (l : List α)
    (hb : b ∈ l) (hc : comp b x = false) : List.Sublist [x, b] (stableInsert comp x l) := by
  induction l with
  | nil => cases hb
  | cons y ys ih =>
    unfold stableInsert
    split
    · rename_i hy
      rcases List.mem_cons.mp hb with h | h
      · subst h; rw [hc] at hy; cases hy
      · exact List.Sublist.cons y (ih h)
    · exact List.Sublist.cons₂ x (List.singleton_sublist.mpr hb)

/-- Stability: two elements of which the second is not less than the first keep their
relative order. -/
theorem stable_sort_stable {α : Type} (comp : α → α → Bool) (a b : α) (hc : comp b a = false) :
    ∀ l : List α, List.Sublist [a, b] l → List.Sublist [a, b] (stable_sort comp l) := by
  intro l
  induction l with
  | nil => intro h; cases h
  | cons x xs ih =>
    intro h
    rw [stable_sort_cons]
    cases h with
    | cons _ h1 => exact (ih h1).trans (stableInsert_sublist comp x _)
    | cons₂ _ h1 =>
      have hb : b ∈ stable_sort comp xs :=
        (stable_sort_perm comp xs).symm.subset (List.singleton_sublist.mp h1)
      exact stableInsert_before comp a b _ hb hc

theorem sortComp_irrefl (fi : SYBFileInfo) : sortComp fi fi = false := by
  rw [sortComp_eq_rank]; simp

theorem sortComp_trans (fi1 fi2 fi3 : SYBFileInfo) (h12 : sortComp fi1 fi2 = true)
    (h23 : sortComp fi2 fi3 = true) : sortComp fi1 fi3 = true := by
  rw [sortComp_eq_rank, decide_eq_true_eq] at h12 h23
  rw [sortComp_eq_rank, decide_eq_true_eq]
  omega

theorem sortComp_incomparable_trans (fi1 fi2 fi3 : SYBFileInfo)
    (h12 : sortComp fi1 fi2 = false) (h21 : sortComp fi2 fi1 = false)
    (h23 : sortComp fi2 fi3 = false) (h32 : sortComp fi3 fi2 = false) :
    sortComp fi1 fi3 = false ∧ sortComp fi3 fi1 = false := by
  rw [sortComp_eq_rank, decide_eq_false_iff_not] at h12 h21 h23 h32
  constructor <;> rw [sortComp_eq_rank, decide_eq_false_iff_not] <;> omega

/-- The copy loop for `n` bytes needs one iteration per started chunk of `cBufSize` bytes,
and one iteration when `n = 0`. -/
theorem copyLoop_isSome_iff (fuel : Nat) : ∀ (n : Nat) (st : CopyState),
    (copyLoop fuel n st).isSome = true ↔ 1 ≤ fuel ∧ (n + 10239) / 10240 ≤ fuel := by
  have hc : cBufSize = 10240 := rfl
  induction fuel with
  | zero => intro n st; simp [copyLoop]
  | succ f ih =>
    intro n st
    rw [copyLoop_succ]
    split
    · rename_i hpos
      rw [ih]
      omega
    · rename_i hpos
      simp only [Option.isSome_some, true_iff]
      omega

/-- An empty copy: one iteration that reads and writes nothing. -/
theorem copyLoop_zero (st : CopyState) : copyLoop 1 0 st = some st := by
  cases st
  simp [copyLoop, streamRead]

/-- A copy of 25600 bytes runs in three iterations, of 10240, 10240 and 5120 bytes. -/
theorem copyLoop_25600 (st : CopyState) (hlen : 25600 ≤ st.input.length) :
    ∃ b, copyLoop 3 25600 st = some ⟨st.input.drop 25600, b,
      st.output ++ st.input.take 10240 ++ (st.input.drop 10240).take 10240 ++
        (st.input.drop 20480).take 5120⟩ := by
  have hc : cBufSize = 10240 := rfl
  have m1 : min 25600 cBufSize = 10240 := by rw [hc]; rfl
  have m2 : min 15360 cBufSize = 10240 := by rw [hc]; rfl
  have m3 : min 5120 cBufSize = 5120 := by rw [hc]; rfl
  rw [copyLoop_succ, m1, streamRead_take _ _ _ (by omega)]
  simp only [show 25600 - 10240 = 15360 from rfl, show 15360 > 0 from by decide, if_true]
  rw [copyLoop_succ, m2]
  simp only [show 15360 - 10240 = 5120 from rfl, show 5120 > 0 from by decide, if_true]
  rw [streamRead_take _ _ _ (by simp only [streamRead, List.length_drop]; omega)]
  rw [copyLoop_succ, m3]
  simp only [show 5120 - 5120 = 0 from rfl, show ¬ (0 > 0) from by decide, if_false]
  rw [streamRead_take _ _ _ (by simp only [streamRead, List.length_drop]; omega)]
  simp only [streamRead, List.drop_drop, Nat.reduceAdd]
  exact ⟨_, rfl⟩

/-! ## Lemmas: invariant of the file info section parser -/

/-- A run of `k + m` iterations is a run of `k` iterations followed by a run of `m`. -/
theorem parseLoop_add (k m : Nat) : ∀ (st : ParserState) (buf s : List Nat),
    parseLoop (k + m) st buf s =
      (parseLoop k st buf s).bind (fun r => parseLoop m r.1 r.2.1 r.2.2) := by
  induction k with
  | zero => intro st buf s; simp [parseLoop]
  | succ k ih =>
    intro st buf s
    rw [Nat.succ_add]
    simp only [parseLoop]
    cases parseByte st ((streamRead s buf 1).1.getD 0 0) with
    | none => rfl
    | some st1 => exact ih st1 _ _

/-- One iteration keeps the index within the name buffer in state `FileName` and within the
size field in state `FileSize`, and keeps the length of the name buffer. -/
theorem parseByte_invariant (st st1 : ParserState) (b : Nat)
    (hinv : (st.curFIField = SYBFileInfoField.FileName ∧ st.curIdx ≤ 127) ∨
      (st.curFIField = SYBFileInfoField.FileSize ∧ st.curIdx ≤ 3))
    (hlen : st.curFileName.length = 128) (h : parseByte st b = some st1) :
    ((st1.curFIField = SYBFileInfoField.FileName ∧ st1.curIdx ≤ 127) ∨
      (st1.curFIField = SYBFileInfoField.FileSize ∧ st1.curIdx ≤ 3)) ∧
    st1.curFileName.length = 128 := by
  obtain ⟨fis, nm, sz, idx, fld⟩ := st
  simp only at hinv hlen
  rcases hinv with ⟨hf, hi⟩ | ⟨hf, hi⟩
  · subst hf
    simp only [parseByte] at h
    split at h
    · split at h
      · rename_i hlt
        simp only [cMaxFileNameSize] at hlt
        cases h
        exact ⟨Or.inl ⟨rfl, by show (idx + 1) % 256 ≤ 127; omega⟩,
          by show (nm.set idx b).length = 128; rw [List.length_set]; exact hlen⟩
      · cases h
    · cases h
      exact ⟨Or.inr ⟨rfl, Nat.zero_le _⟩,
        by show (nm.set idx 0).length = 128; rw [List.length_set]; exact hlen⟩
  · subst hf
    simp only [parseByte] at h
    split at h
    · cases h
      exact ⟨Or.inl ⟨rfl, Nat.zero_le _⟩, hlen⟩
    · rename_i hne
      cases h
      exact ⟨Or.inr ⟨rfl, by show (idx + 1) % 256 ≤ 3; omega⟩, hlen⟩

theorem parseLoop_invariant (n : Nat) : ∀ (st st1 : ParserState) (buf s buf1 s1 : List Nat),
    ((st.curFIField = SYBFileInfoField.FileName ∧ st.curIdx ≤ 127) ∨
      (st.curFIField = SYBFileInfoField.FileSize ∧ st.curIdx ≤ 3)) →
    st.curFileName.length = 128 →
    parseLoop n st buf s = some (st1, buf1, s1) →
    ((st1.curFIField = SYBFileInfoField.FileName ∧ st1.curIdx ≤ 127) ∨
      (st1.curFIField = SYBFileInfoField.FileSize ∧ st1.curIdx ≤ 3)) ∧
    st1.curFileName.length = 128 := by
  induction n with
  | zero =>
    intro st st1 buf s buf1 s1 hinv hlen h
    simp only [parseLoop, Option.some.injEq, Prod.mk.injEq] at h
    rw [← h.1]
    exact ⟨hinv, hlen⟩
  | succ n ih =>
    intro st st1 buf s buf1 s1 hinv hlen h
    simp only [parseLoop] at h
    cases hb : parseByte st ((streamRead s buf 1).1.getD 0 0) with
    | none => rw [hb] at h; cases h
    | some st2 =>
      rw [hb] at h
      have := parseByte_invariant st st2 _ hinv hlen hb
      exact ih st2 st1 _ _ _ _ this.1 this.2 h

/-! ## Lemmas: the parser against the table format of the specification -/

theorem parseLoop_none_of_parseBytes (bs : List Nat) : ∀ (st : ParserState) (buf s : List Nat),
    parseBytes st bs = none → parseLoop bs.length st buf (bs ++ s) = none := by
  induction bs with
  | nil => intro st buf s h; simp [parseBytes] at h
  | cons b bs ih =>
    intro st buf s h
    simp only [parseBytes] at h
    simp only [List.length_cons, parseLoop, streamRead, List.cons_append, List.take_succ_cons,
      List.take_zero, List.length_singleton, List.getD_cons_zero,
      List.drop_succ_cons, List.drop_zero]
    cases hb : parseByte st b with
    | none => rfl
    | some st2 =>
      rw [hb] at h
      exact ih st2 _ s h

theorem dropWhile_head_not {α : Type} (p : α → Bool) (l : List α) (z : α) (r : List α)
    (h : l.dropWhile p = z :: r) : p z = false := by
  induction l with
  | nil => simp at h
  | cons x xs ih =>
    rw [List.dropWhile_cons] at h
    split at h
    · exact ih h
    · rename_i hx
      cases h
      simpa using hx

theorem takeWhile_ne_zero (bs : List Nat) : ∀ c ∈ bs.takeWhile (fun c => c != 0), c ≠ 0 := by
  intro c hc
  have := List.mem_takeWhile_imp hc
  simpa using this

/-- A name field of 128 non-zero bytes or more fails the assertion of line 73. -/
theorem parseBytes_overflow (st : ParserState) (nm tl : List Nat)
    (hf : st.curFIField = SYBFileInfoField.FileName) (hidx : st.curIdx = 0)
    (hbuf : st.curFileName.length = 128) (hnz : ∀ c ∈ nm, c ≠ 0) (hlen : 128 ≤ nm.length) :
    parseBytes st (nm ++ tl) = none := by
  have hsplit : nm = nm.take 127 ++ nm.drop 127 := (List.take_append_drop 127 nm).symm
  have hl : (nm.take 127).length = 127 := by rw [List.length_take]; omega
  cases hd : nm.drop 127 with
  | nil =>
    have := congrArg List.length hd
    simp only [List.length_drop, List.length_nil] at this
    omega
  | cons c rest =>
    have hc : c ≠ 0 := by
      apply hnz
      have : c ∈ nm.drop 127 := by rw [hd]; exact List.mem_cons_self _ _
      exact List.mem_of_mem_drop this
    have hname := parseBytes_name (nm.take 127) st [] st.curFileName hf (by simp [hidx]) rfl
      (by omega) (by simp only [List.length_nil]; omega)
      (fun x hx => hnz x (List.mem_of_mem_take hx))
    rw [hsplit, hd, List.append_assoc, parseBytes_append, hname]
    simp only [Option.bind, List.cons_append, parseBytes, parseByte, hf, List.length_nil,
      Nat.zero_add, hl, cMaxFileNameSize]
    simp [hc]

/-- A name of at most 127 bytes and its terminator: the parser holds the name in
`curFileName` and is in state `FileSize` with index 0. -/
theorem parseBytes_name_zero (st : ParserState) (nm : List Nat)
    (hf : st.curFIField = SYBFileInfoField.FileName) (hidx : st.curIdx = 0)
    (hbuf : st.curFileName.length = 128) (hnz : ∀ c ∈ nm, c ≠ 0) (hlen : nm.length ≤ 127) :
    ∃ t : List Nat, (nm ++ 0 :: t).length = 128 ∧
      parseBytes st (nm ++ [0]) =
        some { st with curFileName := nm ++ 0 :: t, curIdx := 0,
                       curFIField := SYBFileInfoField.FileSize } := by
  have hname := parseBytes_name nm st [] st.curFileName hf (by simp [hidx]) rfl
    (by omega) (by simp; omega) hnz
  cases hd : st.curFileName.drop nm.length with
  | nil =>
    have := congrArg List.length hd
    simp only [List.length_drop, List.length_nil] at this
    omega
  | cons x t =>
    have hdl := congrArg List.length hd
    simp only [List.length_drop, List.length_cons] at hdl
    refine ⟨t, by simp only [List.length_append, List.length_cons]; omega, ?_⟩
    rw [hd] at hname
    simp only [List.nil_append, List.length_nil, Nat.zero_add] at hname
    rw [parseBytes_append, hname]
    simp [parseBytes, parseByte, hf, set_length_append]

/-- Fewer than four size bytes emit no entry. -/
theorem parseBytes_size_partial (st : ParserState) (r : List Nat)
    (hf : st.curFIField = SYBFileInfoField.FileSize) (hidx : st.curIdx = 0)
    (hr : r.length < 4) :
    ∃ st1, parseBytes st r = some st1 ∧ st1.fileInfos = st.fileInfos := by
  obtain ⟨fis, nm, sz, idx, fld⟩ := st
  simp only at hf hidx
  subst hf hidx
  match r, hr with
  | [], _ => exact ⟨_, rfl, rfl⟩
  | [b0], _ => exact ⟨_, rfl, rfl⟩
  | [b0, b1], _ => exact ⟨_, rfl, rfl⟩
  | [b0, b1, b2], _ => exact ⟨_, rfl, rfl⟩

/-- From an entry boundary the parser fails an assertion exactly when the table format of
the specification finds a name field of 128 non-zero bytes, and otherwise emits the entries
the specification reads off the bytes. -/
theorem parseBytes_spec (fuel : Nat) : ∀ (bs : List Nat) (st : ParserState),
    bs.length ≤ fuel → st.curFIField = SYBFileInfoField.FileName → st.curIdx = 0 →
    st.curFileSize = 0 → st.curFileName.length = 128 → (∀ b ∈ bs, b < 256) →
    (specParseTable fuel bs = none → parseBytes st bs = none) ∧
    (∀ es, specParseTable fuel bs = some es →
      ∃ st1, parseBytes st bs = some st1 ∧ st1.fileInfos = st.fileInfos ++ es) := by
  induction fuel with
  | zero =>
    intro bs st hlen _ _ _ _ _
    have hnil : bs = [] := List.length_eq_zero.mp (Nat.le_zero.mp hlen)
    subst hnil
    refine ⟨fun h => by simp [specParseTable] at h, fun es h => ?_⟩
    simp only [specParseTable, Option.some.injEq] at h
    subst h
    exact ⟨st, rfl, by simp⟩
  | succ fuel ih =>
    intro bs st hlen hf hidx hsz hbuf hbytes
    have hbs : bs.takeWhile (fun c => c != 0) ++ bs.dropWhile (fun c => c != 0) = bs :=
      List.takeWhile_append_dropWhile _ _
    have hnz := takeWhile_ne_zero bs
    have hbl := congrArg List.length hbs
    simp only [List.length_append] at hbl
    by_cases hov : 128 ≤ (bs.takeWhile (fun c => c != 0)).length
    · refine ⟨fun _ => ?_, fun es h => by simp [specParseTable, hov] at h⟩
      rw [← hbs]
      exact parseBytes_overflow st _ _ hf hidx hbuf hnz hov
    · obtain ⟨t, ht, hnm⟩ := parseBytes_name_zero st _ hf hidx hbuf hnz (by omega)
      match hdw : bs.dropWhile (fun c => c != 0) with
      | [] =>
        refine ⟨fun h => by simp [specParseTable, hov, hdw] at h, fun es h => ?_⟩
        simp only [specParseTable, hov, hdw, if_false, Option.some.injEq] at h
        subst h
        rw [hdw, List.append_nil] at hbs
        have hname := parseBytes_name _ st [] st.curFileName hf (by simp [hidx]) rfl
          (by omega) (by simp only [List.length_nil]; omega) hnz
        rw [hbs] at hname
        exact ⟨_, hname, by simp⟩
      | [z] =>
        have hz : z = 0 := by simpa using dropWhile_head_not _ _ _ _ hdw
        subst hz
        refine ⟨fun h => by simp [specParseTable, hov, hdw] at h, fun es h => ?_⟩
        simp only [specParseTable, hov, hdw, if_false, Option.some.injEq] at h
        subst h
        rw [hdw] at hbs
        rw [← hbs, hnm]
        exact ⟨_, rfl, by simp⟩
      | [z, b0] =>
        have hz : z = 0 := by simpa using dropWhile_head_not _ _ _ _ hdw
        subst hz
        refine ⟨fun h => by simp [specParseTable, hov, hdw] at h, fun es h => ?_⟩
        simp only [specParseTable, hov, hdw, if_false, Option.some.injEq] at h
        subst h
        rw [hdw] at hbs
        obtain ⟨st1, h1, h2⟩ := parseBytes_size_partial
          { st with curFileName := bs.takeWhile (fun c => c != 0) ++ 0 :: t, curIdx := 0,
                    curFIField := SYBFileInfoField.FileSize } [b0] rfl rfl (by simp)
        refine ⟨st1, ?_, by simpa using h2⟩
        rw [← hbs, show (0 : Nat) :: [b0] = [0] ++ [b0] from rfl, ← List.append_assoc,
          parseBytes_append, hnm]
        exact h1
      | [z, b0, b1] =>
        have hz : z = 0 := by simpa using dropWhile_head_not _ _ _ _ hdw
        subst hz
        refine ⟨fun h => by simp [specParseTable, hov, hdw] at h, fun es h => ?_⟩
        simp only [specParseTable, hov, hdw, if_false, Option.some.injEq] at h
        subst h
        rw [hdw] at hbs
        obtain ⟨st1, h1, h2⟩ := parseBytes_size_partial
          { st with curFileName := bs.takeWhile (fun c => c != 0) ++ 0 :: t, curIdx := 0,
                    curFIField := SYBFileInfoField.FileSize } [b0, b1] rfl rfl (by simp)
        refine ⟨st1, ?_, by simpa using h2⟩
        rw [← hbs, show (0 : Nat) :: [b0, b1] = [0] ++ [b0, b1] from rfl, ← List.append_assoc,
          parseBytes_append, hnm]
        exact h1
      | [z, b0, b1, b2] =>
        have hz : z = 0 := by simpa using dropWhile_head_not _ _ _ _ hdw
        subst hz
        refine ⟨fun h => by simp [specParseTable, hov, hdw] at h, fun es h => ?_⟩
        simp only [specParseTable, hov, hdw, if_false, Option.some.injEq] at h
        subst h
        rw [hdw] at hbs
        obtain ⟨st1, h1, h2⟩ := parseBytes_size_partial
          { st with curFileName := bs.takeWhile (fun c => c != 0) ++ 0 :: t, curIdx := 0,
                    curFIField := SYBFileInfoField.FileSize } [b0, b1, b2] rfl rfl (by simp)
        refine ⟨st1, ?_, by simpa using h2⟩
        rw [← hbs, show (0 : Nat) :: [b0, b1, b2] = [0] ++ [b0, b1, b2] from rfl,
          ← List.append_assoc, parseBytes_append, hnm]
        exact h1
      | z :: b0 :: b1 :: b2 :: b3 :: rest =>
        have hz : z = 0 := by simpa using dropWhile_head_not _ _ _ _ hdw
        subst hz
        rw [hdw] at hbs hbl
        simp only [List.length_cons] at hbl
        have hmem : ∀ x ∈ [b0, b1, b2, b3] ++ rest, x < 256 := by
          intro x hx
          apply hbytes
          rw [← hbs]
          exact List.mem_append_right _ (List.mem_cons_of_mem _ hx)
        have hsize := parseBytes_size
          { st with curFileName := bs.takeWhile (fun c => c != 0) ++ 0 :: t, curIdx := 0,
                    curFIField := SYBFileInfoField.FileSize } b0 b1 b2 b3 rfl rfl hsz
          (hmem b0 (by simp)) (hmem b1 (by simp)) (hmem b2 (by simp)) (hmem b3 (by simp))
        simp only [cString_append_zero _ t hnz] at hsize
        have hih := ih rest
          ⟨st.fileInfos ++ [⟨bs.takeWhile (fun c => c != 0), [],
              b0 + 256 * b1 + 65536 * b2 + 16777216 * b3⟩],
            bs.takeWhile (fun c => c != 0) ++ 0 :: t, 0, 0, SYBFileInfoField.FileName⟩
          (by omega) rfl rfl rfl ht (fun x hx => hmem x (by simp [hx]))
        have hparse : parseBytes st bs =
            parseBytes
              ⟨st.fileInfos ++ [⟨bs.takeWhile (fun c => c != 0), [],
                  b0 + 256 * b1 + 65536 * b2 + 16777216 * b3⟩],
                bs.takeWhile (fun c => c != 0) ++ 0 :: t, 0, 0, SYBFileInfoField.FileName⟩
              rest := by
          conv_lhs => rw [← hbs]
          rw [show (0 : Nat) :: b0 :: b1 :: b2 :: b3 :: rest =
            [0] ++ ([b0, b1, b2, b3] ++ rest) from rfl, ← List.append_assoc,
            parseBytes_append, hnm]
          simp only [Option.bind]
          rw [parseBytes_append, hsize]
          rfl
        rw [hparse]
        constructor
        · intro h
          simp only [specParseTable, hov, hdw, if_false, Option.map_eq_none'] at h
          exact hih.1 h
        · intro es h
          simp only [specParseTable, hov, hdw, if_false, Option.map_eq_some'] at h
          obtain ⟨es1, he1, he2⟩ := h
          obtain ⟨st1, hs1, hs2⟩ := hih.2 es1 he1
          refine ⟨st1, hs1, ?_⟩
          rw [hs2, ← he2]
          simp

/-! ## Lemmas: payload slicing -/

/-- A run of `n` iterations of the parser loop that ends has moved the read cursor by `n`
bytes (to the end of the input when fewer are left). -/
theorem parseLoop_rest (n : Nat) : ∀ (st st1 : ParserState) (buf s buf1 s1 : List Nat),
    parseLoop n st buf s = some (st1, buf1, s1) → s1 = s.drop n := by
  induction n with
  | zero =>
    intro st st1 buf s buf1 s1 h
    simp only [parseLoop, Option.some.injEq, Prod.mk.injEq] at h
    simp [h.2.2]
  | succ n ih =>
    intro st st1 buf s buf1 s1 h
    simp only [parseLoop] at h
    cases hb : parseByte st ((streamRead s buf 1).1.getD 0 0) with
    | none => rw [hb] at h; cases h
    | some st2 =>
      rw [hb] at h
      have := ih st2 st1 _ _ _ _ h
      rw [this]
      simp [streamRead, List.drop_drop, Nat.add_comm]

/-- The extraction loop over an input that holds all the payloads performs the writes of
the specification, in table order. -/
theorem extractLoop_slices (input : List Nat) (fis : List SYBFileInfo) :
    ∀ (offset : Nat) (buffer : List Nat) (files : List (List Nat × List Nat)),
      offset + (fis.map (fun fi => fi.fileSize)).sum ≤ input.length →
      extractLoop fis (input.drop offset) buffer files =
        some ((payloadWrites input offset fis).foldl (fun fs w => putFile fs w.1 w.2) files) := by
  induction fis with
  | nil => intro offset buffer files _; rfl
  | cons fi rest ih =>
    intro offset buffer files h
    simp only [List.map_cons, List.sum_cons] at h
    obtain ⟨b, hb⟩ := copyFile_exact fi.fileSize ⟨input.drop offset, buffer, []⟩
      (by simp only [List.length_drop]; omega)
    simp only [extractLoop, hb, List.drop_drop, List.nil_append, payloadWrites,
      List.foldl_cons]
    have := ih (offset + fi.fileSize) b (putFile files fi.fileName
      ((input.drop offset).take fi.fileSize)) (by omega)
    exact this

/-- The write for the entry at position `i`: the `fileSize` bytes of the input from the
start offset plus the sizes of the entries before it. -/
theorem payloadWrites_get (input : List Nat) (fis : List SYBFileInfo) :
    ∀ (offset i : Nat) (hi : i < fis.length),
      (payloadWrites input offset fis)[i]? =
        some ((fis.get ⟨i, hi⟩).fileName,
          (input.drop (offset + ((fis.take i).map (fun fi => fi.fileSize)).sum)).take
            (fis.get ⟨i, hi⟩).fileSize) := by
  induction fis with
  | nil => intro offset i hi; cases hi
  | cons fi rest ih =>
    intro offset i hi
    cases i with
    | zero => simp [payloadWrites]
    | succ i =>
      have := ih (offset + fi.fileSize) i (Nat.lt_of_succ_lt_succ hi)
      simp only [payloadWrites, List.getElem?_cons_succ, this, List.take_succ_cons,
        List.map_cons, List.sum_cons, List.get_eq_getElem, List.getElem_cons_succ,
        Nat.add_assoc]

/-- A run that passes the path checks and the magic check and whose parser loop ends goes on
with the extraction of the entries the parser emitted. -/
theorem truncated_or_whole (env : UnpackEnv) (h1 : env.inputExists = true)
    (h2 : env.inputExtension = str ".syb" ∨ env.inputExtension = str ".SYB")
    (h3 : env.input.take 4 = [0x56, 0x58, 0x42, 0x47])
    (st : ParserState) (buf1 s1 : List Nat) (hp : parsedTable env = some (st, buf1, s1)) :
    UnpackFiles env = extractFiles env st.fileInfos s1 := by
  have hw : wrongMagic (streamRead env.input env.buf 4).1 = false := by
    match hin : env.input, h3 with
    | a :: b :: c :: d :: t, h3 =>
      rw [streamRead_four]
      have := (wrongMagic_iff a b c d (env.buf.drop 4)).not
      simp only [Bool.not_eq_true, ne_eq, not_not] at this
      exact this.mpr (by simpa using h3)
  have hu := UnpackFiles_of_magic env h1 h2 hw
  rw [hp] at hu
  exact hu

/-! ## Lemmas: a table that stops inside an entry -/

/-- Payload slicing relative to the table size that line 52 decodes. For every input with the right magic on which the parser ends
with the entries `st.fileInfos` and which holds, after the 8 header bytes and the
`fileinfoSize` table bytes, at least the sum of the sizes, `UnpackFiles` returns 0 after
writing, in table order, to the file of the entry at position `i` exactly the `fileSize`
bytes of the input from offset `8 + fileinfoSize + (sizes of the entries before i)`; an
entry of size 0 gets no byte and the next entry starts at the same offset. Here
`fileinfoSize` is the table size line 52 decodes, which is the little-endian value of the
header field when its first three bytes are below `0x80`. -/
theorem payload_slicing_decoded (env : UnpackEnv) (h1 : env.inputExists = true)
    (h2 : env.inputExtension = str ".syb" ∨ env.inputExtension = str ".SYB")
    (h3 : env.input.take 4 = [0x56, 0x58, 0x42, 0x47])
    (st : ParserState) (buf1 s1 : List Nat) (hp : parsedTable env = some (st, buf1, s1))
    (hbody : 8 + decodeFileinfoSize ((env.input.drop 4).take 4) +
      (st.fileInfos.map (fun fi => fi.fileSize)).sum ≤ env.input.length) :
    (∀ files0, (env.output = PathState.directory files0 ∨
        (env.output = PathState.absent ∧ env.createDirectory = CreateDirectoryResult.created ∧ files0 = [])) →
      UnpackFiles env = some (Outcome.returned 0 (PathState.directory
        ((payloadWrites env.input (8 + decodeFileinfoSize ((env.input.drop 4).take 4))
          st.fileInfos).foldl (fun fs w => putFile fs w.1 w.2) files0)))) ∧
    (∀ (i : Nat) (hi : i < st.fileInfos.length),
      (payloadWrites env.input (8 + decodeFileinfoSize ((env.input.drop 4).take 4))
          st.fileInfos)[i]? =
        some ((st.fileInfos.get ⟨i, hi⟩).fileName,
          (env.input.drop (8 + decodeFileinfoSize ((env.input.drop 4).take 4) +
            ((st.fileInfos.take i).map (fun fi => fi.fileSize)).sum)).take
            (st.fileInfos.get ⟨i, hi⟩).fileSize)) ∧
    (∀ (i : Nat) (hi : i < st.fileInfos.length), (st.fileInfos.get ⟨i, hi⟩).fileSize = 0 →
      (env.input.drop (8 + decodeFileinfoSize ((env.input.drop 4).take 4) +
        ((st.fileInfos.take i).map (fun fi => fi.fileSize)).sum)).take
          (st.fileInfos.get ⟨i, hi⟩).fileSize = [] ∧
      ((st.fileInfos.take (i + 1)).map (fun fi => fi.fileSize)).sum =
        ((st.fileInfos.take i).map (fun fi => fi.fileSize)).sum) ∧
    (∀ b0 b1 b2 b3 : Nat, (env.input.drop 4).take 4 = [b0, b1, b2, b3] →
      b0 < 128 → b1 < 128 → b2 < 128 → b3 < 256 →
      decodeFileinfoSize ((env.input.drop 4).take 4) =
        b0 + 256 * b1 + 65536 * b2 + 16777216 * b3) := by
  refine ⟨?_, fun i hi => payloadWrites_get env.input st.fileInfos _ i hi, ?_,
    fun b0 b1 b2 b3 hb h0 h1 h2 h3 => by
      rw [hb]; exact decodeFileinfoSize_of_small b0 b1 b2 b3 h0 h1 h2 h3⟩
  · intro files0 hout
    have hu := (truncated_or_whole env h1 h2 h3 st buf1 s1 hp)
    have hs1 : s1 = env.input.drop (8 + decodeFileinfoSize ((env.input.drop 4).take 4)) := by
      have hlen8 : 8 ≤ env.input.length := by omega
      match hin : env.input, hlen8 with
      | a :: b :: c :: d :: e :: f :: g :: h :: t, _ =>
        have hp2 := hp
        simp only [parsedTable, hin, streamRead_four] at hp2
        have hd : decodeFileinfoSize
            ((List.drop 4 (a :: b :: c :: d :: e :: f :: g :: h :: t)).take 4) =
            decodeFileinfoSize
              (e :: f :: g :: h :: List.drop 4 (a :: b :: c :: d :: List.drop 4 env.buf)) := rfl
        rw [parseLoop_rest _ _ _ _ _ _ _ hp2, hd]
        generalize decodeFileinfoSize
          (e :: f :: g :: h :: List.drop 4 (a :: b :: c :: d :: List.drop 4 env.buf)) = n
        rw [show 8 + n = n + 1 + 1 + 1 + 1 + 1 + 1 + 1 + 1 from by omega]
        rfl
    have hex := extractLoop_slices env.input st.fileInfos
      (8 + decodeFileinfoSize ((env.input.drop 4).take 4)) env.buffer files0 hbody
    rw [← hs1] at hex
    rw [hu]
    rcases hout with ho | ⟨ho, hc, hf⟩
    · simp [extractFiles, ho, hex]
    · subst hf
      simp [extractFiles, ho, hc, hex]
  · intro i hi hz
    refine ⟨by rw [hz, List.take_zero], ?_⟩
    rw [List.take_succ, List.map_append, List.sum_append]
    have : st.fileInfos[i]? = some (st.fileInfos.get ⟨i, hi⟩) := by
      simp [List.getElem?_eq_getElem hi]
    rw [this]
    simp only [Option.toList_some, List.map_cons, List.map_nil, List.sum_cons, List.sum_nil, hz,
      Nat.add_zero]

/-- Payload slicing at a container of two entries, `e` of size 0 and `x` of size 2, with the body
`07 08`: the file `e` is empty and the file `x` holds `07 08`. -/
theorem payload_slicing_example :
    UnpackFiles ⟨true, str ".syb",
        [0x56, 0x58, 0x42, 0x47, 0x0C, 0, 0, 0, 0x65, 0, 0, 0, 0, 0, 0x78, 0, 2, 0, 0, 0, 7, 8],
        PathState.absent, CreateDirectoryResult.created, [0, 0, 0, 0], []⟩ =
      some (Outcome.returned 0 (PathState.directory [(str "e", []), (str "x", [7, 8])])) :=
  (payload_slicing_decoded ⟨true, str ".syb",
      [0x56, 0x58, 0x42, 0x47, 0x0C, 0, 0, 0, 0x65, 0, 0, 0, 0, 0, 0x78, 0, 2, 0, 0, 0, 7, 8],
      PathState.absent, CreateDirectoryResult.created, [0, 0, 0, 0], []⟩ rfl (Or.inl rfl)
    (by decide)
    ⟨[⟨str "e", [], 0⟩, ⟨str "x", [], 2⟩], [0x78, 0] ++ List.replicate 126 0, 0, 0,
      SYBFileInfoField.FileName⟩ [0, 0, 0, 0] [7, 8] (by decide) (by decide)).1 []
    (Or.inr ⟨rfl, rfl, rfl⟩)

/-! # The claims -/

set_option maxRecDepth 100000 in
/-- C1 (round trip), the code at the directory that holds one file whose name is 123 times
the letter `a` and whose content is the byte 1. The directory meets the conditions of the
claim and its table is 128 bytes long; `PackFiles` writes the table size as `80 00 00 00`;
`UnpackFiles` on the container decodes a table size of 4294967168, parses past the table,
the content and the end of the file, and ends in the assertion of line 73: no output
directory, no output file. -/
theorem round_trip_fails_at_table_size_128 :
    ((List.replicate 123 0x61).length ≤ 127 ∧ (∀ c ∈ List.replicate 123 0x61, c ≠ 0) ∧
      specTableSize [(List.replicate 123 0x61, [1])] = 128) ∧
    PackFiles ⟨true, true, false, false, [(List.replicate 123 0x61, [1])], []⟩ =
      some ⟨0, some ([0x56, 0x58, 0x42, 0x47, 0x80, 0, 0, 0] ++ List.replicate 123 0x61 ++
        [0, 1, 0, 0, 0, 1])⟩ ∧
    decodeFileinfoSize [0x80, 0, 0, 0] = 4294967168 ∧
    UnpackFiles ⟨true, str ".syb",
        [0x56, 0x58, 0x42, 0x47, 0x80, 0, 0, 0] ++ List.replicate 123 0x61 ++
          [0, 1, 0, 0, 0, 1],
        PathState.absent, CreateDirectoryResult.created, [0, 0, 0, 0], []⟩ =
      some (Outcome.assertFailed PathState.absent) := by
  decide

/-- C2, counterexample: for the directory that holds the single file `x.bin` of `2^32` zero
bytes, `PackFiles` writes the 18 bytes of header and table and no content byte, which is not
the layout of the claim (the whole file content after the table). -/
theorem container_layout_counterexample :
    PackFiles ⟨true, true, false, false, [(str "x.bin", List.replicate 4294967296 0)], []⟩ =
      some ⟨0, some [0x56, 0x58, 0x42, 0x47, 0x0A, 0, 0, 0, 0x78, 0x2E, 0x62, 0x69, 0x6E, 0,
        0, 0, 0, 0]⟩ ∧
    PackFiles ⟨true, true, false, false, [(str "x.bin", List.replicate 4294967296 0)], []⟩ ≠
      some ⟨0, some (specContainer
        (fileInfoSectionSize [(str "x.bin", List.replicate 4294967296 0)])
        (sortedEntries [(str "x.bin", List.replicate 4294967296 0)]))⟩ :=
  ⟨PackFiles_oversized _ (List.length_replicate _ _),
   PackFiles_oversized_ne _ (List.length_replicate _ _)⟩

/-- C2, amended: for every enumerated directory (pairwise distinct names) that `PackFiles`
accepts, the output is the magic, the table size as 4 little-endian bytes, for each entry in
sorted order its name, a zero byte and its 32-bit size, then for each entry in sorted order
the first `size mod 2^32` bytes of its file; when every file is shorter than `2^32` bytes
this is the container of the specification, with the whole contents; and the directory of
the single file `x.bin` holding 1 2 3 4 5 is encoded as the 23 bytes of the scenario. -/
theorem container_layout (env : PackEnv) (h1 : env.inputExists = true)
    (h2 : env.inputIsDirectory = true)
    (h3 : (env.outputExists && env.outputIsDirectory) = false)
    (hn : (env.entries.map (fun e => e.1)).Nodup) :
    PackFiles env = some ⟨0, some ([0x56, 0x58, 0x42, 0x47] ++
      specLE32 (fileInfoSectionSize env.entries) ++
      ((sortedFileInfos env.entries).map
        (fun fi => fi.fileName ++ [0] ++ specLE32 fi.fileSize)).flatten ++
      ((sortedEntries env.entries).map (fun e => e.2.take (e.2.length % 4294967296))).flatten)⟩ ∧
    ((∀ e ∈ env.entries, e.2.length < 4294967296) →
      PackFiles env = some ⟨0, some (specContainer (fileInfoSectionSize env.entries)
        (sortedEntries env.entries))⟩) ∧
    (env.entries = [(str "x.bin", [1, 2, 3, 4, 5])] →
      PackFiles env = some ⟨0, some [0x56, 0x58, 0x42, 0x47, 0x0A, 0x00, 0x00, 0x00,
        0x78, 0x2E, 0x62, 0x69, 0x6E, 0x00, 0x05, 0x00, 0x00, 0x00,
        0x01, 0x02, 0x03, 0x04, 0x05]⟩) := by
  have hw := PackFiles_written env h1 h2 h3 hn
  have htab : ∀ fis : List SYBFileInfo, writeFileInfos fis =
      (fis.map (fun fi => fi.fileName ++ [0] ++ specLE32 fi.fileSize)).flatten := by
    intro fis
    induction fis with
    | nil => rfl
    | cons fi rest ih =>
      simp only [writeFileInfos, writeFileInfo, putU32_eq, List.map_cons, List.flatten_cons, ih]
      rfl
  refine ⟨?_, ?_, ?_⟩
  · rw [hw, writeHeader, putU32_eq, htab]
    rfl
  · intro hb
    have hmem : ∀ e ∈ sortedEntries env.entries, e ∈ env.entries :=
      fun e he => (stable_sort_perm entryComp env.entries).subset he
    have hb2 : ∀ e ∈ sortedEntries env.entries, e.2.length < 4294967296 :=
      fun e he => hb e (hmem e he)
    have hbody : (sortedEntries env.entries).map (fun e => e.2.take (u32 e.2.length)) =
        (sortedEntries env.entries).map (fun e => e.2) := by
      apply List.map_congr_left
      intro e he
      have : u32 e.2.length = e.2.length := Nat.mod_eq_of_lt (hb2 e he)
      rw [this, List.take_length]
    rw [hw, hbody, sortedFileInfos_eq_map, writeFileInfos_spec _ hb2, writeHeader, putU32_eq]
    rfl
  · intro he
    rw [hw, he]
    decide

/-- C2, amended, at the directory of the scenario: the single file `x.bin` holding 1 2 3 4 5. -/
theorem container_layout_witness :
    PackFiles ⟨true, true, false, false, [(str "x.bin", [1, 2, 3, 4, 5])], []⟩ =
      some ⟨0, some [0x56, 0x58, 0x42, 0x47, 0x0A, 0x00, 0x00, 0x00,
        0x78, 0x2E, 0x62, 0x69, 0x6E, 0x00, 0x05, 0x00, 0x00, 0x00,
        0x01, 0x02, 0x03, 0x04, 0x05]⟩ :=
  (container_layout ⟨true, true, false, false, [(str "x.bin", [1, 2, 3, 4, 5])], []⟩
    rfl rfl rfl (by decide)).2.2 rfl

/-- C3 (table-size invariant). For every enumerated directory whose sum of
`len(name) + 1 + 4` is below `2^32` and that `PackFiles` accepts, the value of
`fileInfoSectionSize` equals that sum, the header holds it as 4 little-endian bytes right
after the magic, and the file-info table written after the header, for the sorted entries,
is exactly that many bytes long. -/
theorem table_size_invariant (env : PackEnv) (h1 : env.inputExists = true)
    (h2 : env.inputIsDirectory = true)
    (h3 : (env.outputExists && env.outputIsDirectory) = false)
    (hsum : specTableSize env.entries < 4294967296) :
    fileInfoSectionSize env.entries = specTableSize env.entries ∧
    (writeFileInfos (sortedFileInfos env.entries)).length = specTableSize env.entries ∧
    ∃ body, PackFiles env = some ⟨0, some ([0x56, 0x58, 0x42, 0x47] ++
      specLE32 (specTableSize env.entries) ++
      writeFileInfos (sortedFileInfos env.entries) ++ body)⟩ := by
  have hs : fileInfoSectionSize env.entries = specTableSize env.entries := by
    have := collectLoop_snd env.entries [] 0 (by omega)
    simpa [fileInfoSectionSize] using this
  refine ⟨hs, writeFileInfos_sorted_length env.entries, ?_⟩
  obtain ⟨body, hb⟩ := writeContents_total env.entries (sortedFileInfos env.entries)
    env.buffer (writeHeader (fileInfoSectionSize env.entries) ++
      writeFileInfos (sortedFileInfos env.entries))
  refine ⟨body, ?_⟩
  simp only [PackFiles, h1, h2, h3, hb]
  rw [hs, writeHeader, putU32_eq]
  rfl

/-- C3 at a directory of two files, whose table is 28 bytes long. -/
theorem table_size_invariant_witness :
    specTableSize [(str "b.wav", [1, 2]), (str "long_name.mp3", [3])] = 28 ∧
    fileInfoSectionSize [(str "b.wav", [1, 2]), (str "long_name.mp3", [3])] =
      specTableSize [(str "b.wav", [1, 2]), (str "long_name.mp3", [3])] ∧
    (writeFileInfos (sortedFileInfos
      [(str "b.wav", [1, 2]), (str "long_name.mp3", [3])])).length =
      specTableSize [(str "b.wav", [1, 2]), (str "long_name.mp3", [3])] :=
  ⟨by decide,
   (table_size_invariant
      ⟨true, true, false, false, [(str "b.wav", [1, 2]), (str "long_name.mp3", [3])], []⟩
      rfl rfl rfl (by decide)).1,
   (table_size_invariant
      ⟨true, true, false, false, [(str "b.wav", [1, 2]), (str "long_name.mp3", [3])], []⟩
      rfl rfl rfl (by decide)).2.1⟩

/-- C4 (the table parser undoes the table writer). For every list of entries whose names
hold no zero byte and at most 127 bytes and whose sizes are below `2^32`, the parser loop run
over exactly the bytes `PackFiles` writes for the list emits these entries (name, empty
extension, size) in the same order, leaves what follows the table unread, and ends in state
`FileName` with `curIdx = 0` and `curFileSize = 0`. -/
theorem table_parser_inverts_writer (fis : List SYBFileInfo)
    (hwf : ∀ fi ∈ fis, (∀ c ∈ fi.fileName, c ≠ 0) ∧ fi.fileName.length ≤ 127 ∧
      fi.fileSize < 4294967296)
    (buf rest : List Nat) :
    ∃ (st : ParserState) (buf1 : List Nat),
      parseLoop (writeFileInfos fis).length parserInit buf (writeFileInfos fis ++ rest) =
        some (st, buf1, rest) ∧
      st.fileInfos = fis.map (fun fi => ⟨fi.fileName, [], fi.fileSize⟩) ∧
      st.curFIField = SYBFileInfoField.FileName ∧ st.curIdx = 0 ∧ st.curFileSize = 0 := by
  obtain ⟨nb, _, hp⟩ := parseBytes_table fis parserInit rfl rfl rfl
    (List.length_replicate _ _) hwf
  obtain ⟨buf1, hl⟩ := parseLoop_of_parseBytes (writeFileInfos fis) parserInit _ buf rest hp
  exact ⟨_, buf1, hl, by simp [parserInit], rfl, rfl, rfl⟩

/-- C4 at a table of two entries followed by two more bytes. -/
theorem table_parser_inverts_writer_witness :
    ∃ (st : ParserState) (buf1 : List Nat),
      parseLoop (writeFileInfos [⟨str "b.mp3", str ".mp3", 70000⟩, ⟨str "x", [], 0⟩]).length
          parserInit [0, 0, 0, 0]
          (writeFileInfos [⟨str "b.mp3", str ".mp3", 70000⟩, ⟨str "x", [], 0⟩] ++ [7, 7]) =
        some (st, buf1, [7, 7]) ∧
      st.fileInfos = ([⟨str "b.mp3", str ".mp3", 70000⟩, ⟨str "x", [], 0⟩] :
        List SYBFileInfo).map (fun fi => ⟨fi.fileName, [], fi.fileSize⟩) ∧
      st.curFIField = SYBFileInfoField.FileName ∧ st.curIdx = 0 ∧ st.curFileSize = 0 :=
  table_parser_inverts_writer [⟨str "b.mp3", str ".mp3", 70000⟩, ⟨str "x", [], 0⟩]
    (by decide) [0, 0, 0, 0] [7, 7]

/-- C5 (header table size), the code at the bytes `80 00 00 00`: line 52 yields 4294967168,
not 128, although these are the bytes `PackFiles` writes for a table size of 128 and the
accumulation of line 86, which casts to `unsigned char`, yields 128 for them. -/
theorem header_size_sign_extended :
    decodeFileinfoSize [0x80, 0x00, 0x00, 0x00] = 4294967168 ∧
    decodeFileinfoSize [0x80, 0x00, 0x00, 0x00] ≠ 0x80 + 256 * 0 + 65536 * 0 + 16777216 * 0 ∧
    putU32 128 = [0x80, 0x00, 0x00, 0x00] ∧
    decodeFileinfoSize (putU32 128) ≠ 128 ∧
    u32 (u32 (u32 (u32 (0 ||| shl32 0x80 (8 * 0)) ||| shl32 0 (8 * 1)) ||| shl32 0 (8 * 2)) |||
      shl32 0 (8 * 3)) = 128 := by
  decide

/-- C6 (magic rejection). For every input of at least 4 bytes whose first four bytes are not
`56 58 42 47`, `UnpackFiles` returns 1 and leaves the output path as it was (no directory
created, no file written). For every input that starts with `56 58 42 47` the condition of
the magic check is false, and a run that passed the path checks continues with the table
size and the table. -/
theorem magic_rejection (env : UnpackEnv) :
    (4 ≤ env.input.length → env.input.take 4 ≠ [0x56, 0x58, 0x42, 0x47] →
      UnpackFiles env = some (Outcome.returned 1 env.output)) ∧
    (env.input.take 4 = [0x56, 0x58, 0x42, 0x47] →
      wrongMagic (streamRead env.input env.buf 4).1 = false ∧
      (env.inputExists = true →
        (env.inputExtension = str ".syb" ∨ env.inputExtension = str ".SYB") →
        UnpackFiles env = unpackBody env (streamRead env.input env.buf 4).1
          (streamRead env.input env.buf 4).2)) := by
  constructor
  · intro hlen hne
    match hin : env.input, hlen, hne with
    | a :: b :: c :: d :: t, _, hne =>
      have hw : wrongMagic (streamRead (a :: b :: c :: d :: t) env.buf 4).1 = true := by
        rw [streamRead_four]
        exact (wrongMagic_iff a b c d _).mpr (by simpa using hne)
      unfold UnpackFiles
      rw [hin]
      simp only [hw]
      split
      · rfl
      · split <;> rfl
  · intro htake
    match hin : env.input, htake with
    | a :: b :: c :: d :: t, htake =>
      have hw : wrongMagic (streamRead (a :: b :: c :: d :: t) env.buf 4).1 = false := by
        rw [streamRead_four]
        have := (wrongMagic_iff a b c d (env.buf.drop 4)).not
        simp only [Bool.not_eq_true, ne_eq, not_not] at this
        exact this.mpr (by simpa using htake)
      refine ⟨hw, ?_⟩
      intro h1 h2
      have hext : (env.inputExtension != str ".syb" && env.inputExtension != str ".SYB") =
          false := by
        rcases h2 with h | h <;> simp [h]
      unfold UnpackFiles
      rw [hin]
      simp [h1, hext, hw]

/-- C6 at an input whose fourth byte is 48 instead of 47. -/
theorem magic_rejection_witness :
    4 ≤ [0x56, 0x58, 0x42, 0x48, 0, 0, 0, 0].length ∧
    [0x56, 0x58, 0x42, 0x48, 0, 0, 0, 0].take 4 ≠ [0x56, 0x58, 0x42, 0x47] ∧
    UnpackFiles ⟨true, str ".syb", [0x56, 0x58, 0x42, 0x48, 0, 0, 0, 0], PathState.absent,
        CreateDirectoryResult.created, [0, 0, 0, 0], []⟩ =
      some (Outcome.returned 1 PathState.absent) :=
  ⟨by decide, by decide,
   (magic_rejection ⟨true, str ".syb", [0x56, 0x58, 0x42, 0x48, 0, 0, 0, 0], PathState.absent,
      CreateDirectoryResult.created, [0, 0, 0, 0], []⟩).1 (by decide) (by decide)⟩

/-- C7 (extension priority). In the sorted sequence of every enumerated directory, an entry
whose extension is `.mp3` stands before every entry with another extension, a `.wav` entry
before every entry that is neither `.mp3` nor `.wav`, and a `.jpg` entry before every entry
that is none of the three; and whenever the enumerated names are `a.wav`, `b.mp3`, `c.jpg`,
`d.txt` in any order, the table order is `b.mp3`, `a.wav`, `c.jpg`, `d.txt`. -/
theorem extension_priority (dir : List (List Nat × List Nat)) :
    (∀ (i j : Nat) (hi : i < (sortedFileInfos dir).length)
        (hj : j < (sortedFileInfos dir).length),
        (((sortedFileInfos dir).get ⟨i, hi⟩).extension = str ".mp3" ∧
            ((sortedFileInfos dir).get ⟨j, hj⟩).extension ≠ str ".mp3") ∨
        (((sortedFileInfos dir).get ⟨i, hi⟩).extension = str ".wav" ∧
            ((sortedFileInfos dir).get ⟨j, hj⟩).extension ≠ str ".mp3" ∧
            ((sortedFileInfos dir).get ⟨j, hj⟩).extension ≠ str ".wav") ∨
        (((sortedFileInfos dir).get ⟨i, hi⟩).extension = str ".jpg" ∧
            ((sortedFileInfos dir).get ⟨j, hj⟩).extension ≠ str ".mp3" ∧
            ((sortedFileInfos dir).get ⟨j, hj⟩).extension ≠ str ".wav" ∧
            ((sortedFileInfos dir).get ⟨j, hj⟩).extension ≠ str ".jpg") →
        i < j) ∧
    (List.Perm (dir.map (fun e => e.1)) [str "a.wav", str "b.mp3", str "c.jpg", str "d.txt"] →
      (sortedFileInfos dir).map (fun fi => fi.fileName) =
        [str "b.mp3", str "a.wav", str "c.jpg", str "d.txt"]) := by
  constructor
  · intro i j hi hj h
    have hs := sortedFileInfos_sorted dir
    rw [List.pairwise_iff_getElem] at hs
    have hlt : extRank ((sortedFileInfos dir).get ⟨i, hi⟩).extension <
        extRank ((sortedFileInfos dir).get ⟨j, hj⟩).extension := by
      have h1 := str_mp3_ne_wav
      have h2 := str_mp3_ne_jpg
      have h3 := str_wav_ne_jpg
      unfold extRank
      rcases h with ⟨a, b⟩ | ⟨a, b, c⟩ | ⟨a, b, c, d⟩
      · rw [a]; simp only [if_true]; split_ifs <;> simp_all
      · rw [a, if_neg (Ne.symm h1), if_pos rfl, if_neg b, if_neg c]; split_ifs <;> simp
      · rw [a, if_neg (Ne.symm h2), if_neg (Ne.symm h3), if_pos rfl, if_neg b, if_neg c,
          if_neg d]; simp
    rcases Nat.lt_trichotomy i j with hij | hij | hij
    · exact hij
    · subst hij; exact absurd hlt (Nat.lt_irrefl _)
    · have := hs j i hj hi hij
      simp only [List.get_eq_getElem] at hlt
      omega
  · intro hp
    rw [sortedFileInfos_names]
    have key : ∀ l ∈ [str "a.wav", str "b.mp3", str "c.jpg", str "d.txt"].permutations',
        stable_sort nameComp l = [str "b.mp3", str "a.wav", str "c.jpg", str "d.txt"] := by
      decide
    exact key _ (List.mem_permutations'.mpr hp)

/-- C7 at the enumeration order `d.txt`, `c.jpg`, `a.wav`, `b.mp3`. -/
theorem extension_priority_witness :
    List.Perm ([(str "d.txt", [4]), (str "c.jpg", [3]), (str "a.wav", [1]),
        (str "b.mp3", [2])].map (fun e => e.1))
      [str "a.wav", str "b.mp3", str "c.jpg", str "d.txt"] ∧
    (sortedFileInfos [(str "d.txt", [4]), (str "c.jpg", [3]), (str "a.wav", [1]),
        (str "b.mp3", [2])]).map (fun fi => fi.fileName) =
      [str "b.mp3", str "a.wav", str "c.jpg", str "d.txt"] :=
  ⟨by decide, (extension_priority _).2 (by decide)⟩

/-- C8 (underscore deprioritization), the code at the enumeration order `foo_bar.txt`,
`foo.txt`: the table order is `foo_bar.txt`, `foo.txt`, the comparator orders the two entries
neither way, although the name comparison of line 191 applied to the two names puts
`foo.txt` first. -/
theorem underscore_order_not_applied :
    (sortedFileInfos [(str "foo_bar.txt", [1]), (str "foo.txt", [2])]).map
        (fun fi => fi.fileName) = [str "foo_bar.txt", str "foo.txt"] ∧
    sortComp (mkFileInfo (str "foo.txt", [2])) (mkFileInfo (str "foo_bar.txt", [1])) = false ∧
    sortComp (mkFileInfo (str "foo_bar.txt", [1])) (mkFileInfo (str "foo.txt", [2])) = false ∧
    lexicographical_compare charPred (str "foo.txt") (str "foo_bar.txt") = true := by
  decide

/-- C9, counterexample: the directory holding `a.txt` and `b.bin` is packed in the order
`a.txt`, `b.bin` when enumerated so, and in the order `b.bin`, `a.txt` when enumerated the
other way round. -/
theorem pack_order_depends_on_enumeration :
    List.Perm [(str "a.txt", [1]), (str "b.bin", [2])] [(str "b.bin", [2]), (str "a.txt", [1])] ∧
    (sortedFileInfos [(str "a.txt", [1]), (str "b.bin", [2])]).map (fun fi => fi.fileName) =
      [str "a.txt", str "b.bin"] ∧
    (sortedFileInfos [(str "b.bin", [2]), (str "a.txt", [1])]).map (fun fi => fi.fileName) =
      [str "b.bin", str "a.txt"] ∧
    sortedFileInfos [(str "a.txt", [1]), (str "b.bin", [2])] ≠
      sortedFileInfos [(str "b.bin", [2]), (str "a.txt", [1])] := by
  decide

/-- C9, amended: for two enumeration orders of the same directory the sorted sequences hold
the same entries and the same priority class (`.mp3`, `.wav`, `.jpg`, other) at every
position, and they are equal when no two files of the directory have the same priority
class; two entries with different extensions outside `.mp3`, `.wav`, `.jpg` stand in the
sorted sequence in the order in which they were enumerated. -/
theorem pack_order_of_permutation (d1 d2 : List (List Nat × List Nat))
    (hp : List.Perm d1 d2) :
    List.Perm (sortedFileInfos d1) (sortedFileInfos d2) ∧
    (sortedFileInfos d1).map (fun fi => extRank fi.extension) =
      (sortedFileInfos d2).map (fun fi => extRank fi.extension) ∧
    (d1.Pairwise (fun a b => extRank (pathExtension a.1) ≠ extRank (pathExtension b.1)) →
      sortedFileInfos d1 = sortedFileInfos d2) ∧
    (∀ a b : SYBFileInfo, a.extension ≠ b.extension →
      a.extension ≠ str ".mp3" → a.extension ≠ str ".wav" → a.extension ≠ str ".jpg" →
      b.extension ≠ str ".mp3" → b.extension ≠ str ".wav" → b.extension ≠ str ".jpg" →
      List.Sublist [a, b] (collectLoop d1 [] 0).1 →
      List.Sublist [a, b] (sortedFileInfos d1)) := by
  have hperm : List.Perm (sortedFileInfos d1) (sortedFileInfos d2) :=
    ((sortedFileInfos_perm d1).trans (hp.map mkFileInfo)).trans (sortedFileInfos_perm d2).symm
  refine ⟨hperm, ?_, ?_, ?_⟩
  · exact sorted_keys_eq (fun fi => extRank fi.extension) _ _ hperm
      (sortedFileInfos_sorted d1) (sortedFileInfos_sorted d2)
  · intro hd
    have hd1 : (d1.map mkFileInfo).Pairwise
        (fun a b => extRank a.extension ≠ extRank b.extension) :=
      List.pairwise_map.mpr hd
    have hd2 : (sortedFileInfos d1).Pairwise
        (fun a b => extRank a.extension ≠ extRank b.extension) :=
      ((sortedFileInfos_perm d1).pairwise_iff
        (fun {a b} (hab : extRank a.extension ≠ extRank b.extension) => Ne.symm hab)).mpr hd1
    exact sorted_unique (fun fi => extRank fi.extension) _ _ hperm hd2
      (sortedFileInfos_sorted d1) (sortedFileInfos_sorted d2)
  · intro a b _ a1 a2 a3 b1 b2 b3 h
    have hba : sortComp b a = false := by
      rw [sortComp_eq_rank]
      simp [extRank, a1, a2, a3, b1, b2, b3]
    exact stable_sort_stable sortComp a b hba _ h

/-- C9, amended, at two enumeration orders of `a.wav`, `b.mp3`, `d.txt`, and at the entries
`z.txt`, `c.bin` of the enumeration `z.txt`, `b.mp3`, `c.bin`. -/
theorem pack_order_of_permutation_witness :
    (List.Perm [(str "a.wav", [1]), (str "b.mp3", [2]), (str "d.txt", [3])]
        [(str "d.txt", [3]), (str "a.wav", [1]), (str "b.mp3", [2])] ∧
      sortedFileInfos [(str "a.wav", [1]), (str "b.mp3", [2]), (str "d.txt", [3])] =
        sortedFileInfos [(str "d.txt", [3]), (str "a.wav", [1]), (str "b.mp3", [2])]) ∧
    List.Sublist [mkFileInfo (str "z.txt", [1]), mkFileInfo (str "c.bin", [3])]
      (sortedFileInfos [(str "z.txt", [1]), (str "b.mp3", [2]), (str "c.bin", [3])]) :=
  ⟨⟨by decide, (pack_order_of_permutation _ _ (by decide)).2.2.1 (by decide)⟩,
   (pack_order_of_permutation [(str "z.txt", [1]), (str "b.mp3", [2]), (str "c.bin", [3])]
      [(str "z.txt", [1]), (str "b.mp3", [2]), (str "c.bin", [3])] (List.Perm.refl _)).2.2.2
      (mkFileInfo (str "z.txt", [1])) (mkFileInfo (str "c.bin", [3]))
      (by decide) (by decide) (by decide) (by decide) (by decide) (by decide) (by decide)
      (by decide)⟩

/-- C11 (name-length guard). For every table byte sequence, the parser loop run over it
fails the assertion of line 73 exactly when some name field of the table reaches 128
non-zero bytes; otherwise it emits exactly the entries of the table, each name with all its
bytes (at most 127), and leaves what follows the table unread. -/
theorem name_length_guard (bs buf rest : List Nat) (hb : ∀ b ∈ bs, b < 256) :
    (parseLoop bs.length parserInit buf (bs ++ rest) = none ↔
      specParseTable bs.length bs = none) ∧
    (∀ es, specParseTable bs.length bs = some es →
      ∃ (st : ParserState) (buf1 : List Nat),
        parseLoop bs.length parserInit buf (bs ++ rest) = some (st, buf1, rest) ∧
        st.fileInfos = es) := by
  have hspec := parseBytes_spec bs.length bs parserInit (Nat.le_refl _) rfl rfl rfl
    (List.length_replicate _ _) hb
  have hsome : ∀ es, specParseTable bs.length bs = some es →
      ∃ (st : ParserState) (buf1 : List Nat),
        parseLoop bs.length parserInit buf (bs ++ rest) = some (st, buf1, rest) ∧
        st.fileInfos = es := by
    intro es hes
    obtain ⟨st1, h1, h2⟩ := hspec.2 es hes
    obtain ⟨buf1, hl⟩ := parseLoop_of_parseBytes bs parserInit st1 buf rest h1
    exact ⟨st1, buf1, hl, by simpa [parserInit] using h2⟩
  refine ⟨⟨fun h => ?_, fun h => parseLoop_none_of_parseBytes bs parserInit buf rest
    (hspec.1 h)⟩, hsome⟩
  cases hs : specParseTable bs.length bs with
  | none => rfl
  | some es =>
    obtain ⟨st, buf1, hl, _⟩ := hsome es hs
    rw [hl] at h
    cases h

set_option maxRecDepth 100000 in
/-- C11 at a table whose only name has 127 bytes, which is emitted whole, with the table of
a 128-byte name next to it, on which the parser fails the assertion. -/
theorem name_length_guard_witness :
    (∃ (st : ParserState) (buf1 : List Nat),
      parseLoop (List.replicate 127 0x61 ++ [0, 1, 0, 0, 0]).length parserInit [0, 0, 0, 0]
          ((List.replicate 127 0x61 ++ [0, 1, 0, 0, 0]) ++ [9]) = some (st, buf1, [9]) ∧
        st.fileInfos = [⟨List.replicate 127 0x61, [], 1⟩]) ∧
    parseLoop (List.replicate 128 0x61 ++ [0, 1, 0, 0, 0]).length parserInit [0, 0, 0, 0]
      ((List.replicate 128 0x61 ++ [0, 1, 0, 0, 0]) ++ [9]) = none :=
  ⟨(name_length_guard (List.replicate 127 0x61 ++ [0, 1, 0, 0, 0]) [0, 0, 0, 0] [9]
      (by decide)).2 [⟨List.replicate 127 0x61, [], 1⟩] (by decide),
   (name_length_guard (List.replicate 128 0x61 ++ [0, 1, 0, 0, 0]) [0, 0, 0, 0] [9]
      (by decide)).1.mpr (by decide)⟩

set_option maxRecDepth 100000 in
/-- C12 (payload slicing), the code at the container `56 58 42 47 80 00 00 00`, a table of
128 bytes that is the whole entry of a 123-byte name with size 1, and the body `01`. The
header holds the table size 128 in little-endian, the table divides into that one entry and
the body holds its payload, at offset 8 + 128; `UnpackFiles` decodes a table size of
4294967168, its parser fails the assertion of line 73 and no file is written. -/
theorem payload_slicing_fails_at_table_size_128 :
    specLE32 128 = [0x80, 0, 0, 0] ∧
    (List.replicate 123 0x61 ++ [0, 1, 0, 0, 0]).length = 128 ∧
    specParseTable 128 (List.replicate 123 0x61 ++ [0, 1, 0, 0, 0]) =
      some [⟨List.replicate 123 0x61, [], 1⟩] ∧
    (([0x56, 0x58, 0x42, 0x47, 0x80, 0, 0, 0] ++ List.replicate 123 0x61 ++
      [0, 1, 0, 0, 0, 1]).drop (8 + 128)).take 1 = [1] ∧
    parsedTable ⟨true, str ".syb",
        [0x56, 0x58, 0x42, 0x47, 0x80, 0, 0, 0] ++ List.replicate 123 0x61 ++
          [0, 1, 0, 0, 0, 1],
        PathState.directory [], CreateDirectoryResult.created, [0, 0, 0, 0], []⟩ = none ∧
    UnpackFiles ⟨true, str ".syb",
        [0x56, 0x58, 0x42, 0x47, 0x80, 0, 0, 0] ++ List.replicate 123 0x61 ++
          [0, 1, 0, 0, 0, 1],
        PathState.directory [], CreateDirectoryResult.created, [0, 0, 0, 0], []⟩ =
      some (Outcome.assertFailed (PathState.directory [])) := by
  decide

/-- C13 (chunked copy). For every size `n` below `2^32` and every source that holds at least
`n` bytes at the cursor, the copy loop with the 10240-byte buffer ends, the bytes it writes
are exactly the next `n` bytes of the source and the cursor advances by `n`; the loop runs
one iteration per started chunk of 10240 bytes, one iteration that copies nothing for
`n = 0`, and three iterations of 10240, 10240 and 5120 bytes for `n = 25600`. -/
theorem chunked_copy (n : Nat) (st : CopyState) (_hn : n < 4294967296)
    (hlen : n ≤ st.input.length) :
    (∃ b, copyFile n st = some ⟨st.input.drop n, b, st.output ++ st.input.take n⟩) ∧
    (∀ fuel, (copyLoop fuel n st).isSome = true ↔ 1 ≤ fuel ∧ (n + 10239) / 10240 ≤ fuel) ∧
    (n = 0 → copyLoop 1 n st = some st) ∧
    (n = 25600 → ∃ b, copyLoop 3 n st = some ⟨st.input.drop 25600, b,
      st.output ++ st.input.take 10240 ++ (st.input.drop 10240).take 10240 ++
        (st.input.drop 20480).take 5120⟩) := by
  refine ⟨copyFile_exact n st hlen, fun fuel => copyLoop_isSome_iff fuel n st, ?_, ?_⟩
  · intro h0; subst h0; exact copyLoop_zero st
  · intro h; subst h; exact copyLoop_25600 st hlen

/-- C13 at a copy of 3 bytes from a source of 5 bytes. -/
theorem chunked_copy_witness :
    ∃ b, copyFile 3 ⟨[1, 2, 3, 4, 5], [9, 9], [7]⟩ =
      some ⟨[4, 5], b, [7, 1, 2, 3]⟩ :=
  (chunked_copy 3 ⟨[1, 2, 3, 4, 5], [9, 9], [7]⟩ (by decide) (by decide)).1

/-- C14 (stability of the pack sort). For every enumerated directory the sorted sequence is
a permutation of the enumerated entries, and two entries that the comparator orders neither
way stand in the sorted sequence in the order in which they were enumerated. -/
theorem pack_sort_stable (dir : List (List Nat × List Nat)) :
    List.Perm (sortedFileInfos dir) (collectLoop dir [] 0).1 ∧
    (∀ a b : SYBFileInfo, sortComp a b = false → sortComp b a = false →
      List.Sublist [a, b] (collectLoop dir [] 0).1 →
      List.Sublist [a, b] (sortedFileInfos dir)) := by
  constructor
  · exact stable_sort_perm _ _
  · intro a b _ hba h
    exact stable_sort_stable sortComp a b hba _ h

/-- C14 at the enumeration order `z.txt`, `k.mp3`, `a.txt`: the two `.txt` entries keep their
order. -/
theorem pack_sort_stable_witness :
    List.Sublist [mkFileInfo (str "z.txt", [1]), mkFileInfo (str "a.txt", [3])]
      (sortedFileInfos [(str "z.txt", [1]), (str "k.mp3", [2]), (str "a.txt", [3])]) :=
  (pack_sort_stable [(str "z.txt", [1]), (str "k.mp3", [2]), (str "a.txt", [3])]).2
    (mkFileInfo (str "z.txt", [1])) (mkFileInfo (str "a.txt", [3])) (by decide) (by decide)
    (by decide)

/-- C15 (the comparator compares extension ranks). With rank 0 for `.mp3`, 1 for `.wav`,
2 for `.jpg` and 3 for every other extension, the comparator is true exactly when the rank
of the first extension is below the rank of the second; the name comparison of a name with
itself is false, so the comparator is false for two entries with the same extension; and the
comparator is irreflexive, transitive, and its incomparability is transitive. -/
theorem comparator_is_rank_order (fi1 fi2 fi3 : SYBFileInfo) :
    (sortComp fi1 fi2 = true ↔ extRank fi1.extension < extRank fi2.extension) ∧
    lexicographical_compare charPred fi1.fileName fi1.fileName = false ∧
    (fi1.extension = fi2.extension → sortComp fi1 fi2 = false) ∧
    sortComp fi1 fi1 = false ∧
    (sortComp fi1 fi2 = true → sortComp fi2 fi3 = true → sortComp fi1 fi3 = true) ∧
    (sortComp fi1 fi2 = false → sortComp fi2 fi1 = false → sortComp fi2 fi3 = false →
      sortComp fi3 fi2 = false → sortComp fi1 fi3 = false ∧ sortComp fi3 fi1 = false) := by
  refine ⟨?_, lexicographical_compare_self _, ?_, sortComp_irrefl fi1,
    sortComp_trans fi1 fi2 fi3, sortComp_incomparable_trans fi1 fi2 fi3⟩
  · rw [sortComp_eq_rank, decide_eq_true_eq]
  · intro h
    rw [sortComp_eq_rank, h]
    simp

/-- C15 at the entries `b.mp3`, `a.wav`, `c.txt`. -/
theorem comparator_is_rank_order_witness :
    sortComp ⟨str "b.mp3", str ".mp3", 1⟩ ⟨str "c.txt", str ".txt", 3⟩ = true :=
  (comparator_is_rank_order ⟨str "b.mp3", str ".mp3", 1⟩ ⟨str "a.wav", str ".wav", 2⟩
    ⟨str "c.txt", str ".txt", 3⟩).2.2.2.2.1 (by decide) (by decide)

/-- C16 (bounds safety of the table parser). In a run of the parser loop over any input and
for any table size, the state at the head of every iteration the run reaches is in state
`FileName` with `curIdx ≤ 127` or in state `FileSize` with `curIdx ≤ 3`; so a write into the
128-byte name buffer is at an index of at most 127 and a shift amount is 0, 8, 16 or 24. -/
theorem parser_bounds (tableSize k : Nat) (hk : k ≤ tableSize) (buf s : List Nat) :
    parseLoop tableSize parserInit buf s =
      (parseLoop k parserInit buf s).bind
        (fun r => parseLoop (tableSize - k) r.1 r.2.1 r.2.2) ∧
    ∀ (st : ParserState) (buf1 s1 : List Nat),
      parseLoop k parserInit buf s = some (st, buf1, s1) →
      ((st.curFIField = SYBFileInfoField.FileName ∧ st.curIdx ≤ 127) ∨
        (st.curFIField = SYBFileInfoField.FileSize ∧ st.curIdx ≤ 3)) ∧
      st.curFileName.length = 128 ∧
      (st.curFIField = SYBFileInfoField.FileName → st.curIdx < st.curFileName.length) ∧
      (st.curFIField = SYBFileInfoField.FileSize →
        8 * st.curIdx = 0 ∨ 8 * st.curIdx = 8 ∨ 8 * st.curIdx = 16 ∨ 8 * st.curIdx = 24) := by
  constructor
  · have := parseLoop_add k (tableSize - k) parserInit buf s
    rwa [Nat.add_sub_cancel' hk] at this
  · intro st buf1 s1 h
    have hinv := parseLoop_invariant k parserInit st buf s buf1 s1
      (Or.inl ⟨rfl, Nat.zero_le _⟩) (List.length_replicate _ _) h
    refine ⟨hinv.1, hinv.2, ?_, ?_⟩
    · intro hf
      rcases hinv.1 with ⟨_, hi⟩ | ⟨hg, _⟩
      · omega
      · rw [hf] at hg; cases hg
    · intro hf
      rcases hinv.1 with ⟨hg, _⟩ | ⟨_, hi⟩
      · rw [hf] at hg; cases hg
      · omega

/-- C16 at the head of the fourth iteration of a run over `61 62 00 05 00 00 00`: state
`FileSize`, `curIdx = 0`. -/
theorem parser_bounds_witness :
    parseLoop 3 parserInit [0, 0, 0, 0] [0x61, 0x62, 0, 5, 0, 0, 0] =
      some (⟨[], [0x61, 0x62] ++ List.replicate 126 0, 0, 0, SYBFileInfoField.FileSize⟩,
        [0, 0, 0, 0], [5, 0, 0, 0]) ∧
    (SYBFileInfoField.FileSize = SYBFileInfoField.FileSize →
      8 * 0 = 0 ∨ 8 * 0 = 8 ∨ 8 * 0 = 16 ∨ 8 * 0 = 24) :=
  ⟨by decide,
   ((parser_bounds 7 3 (by decide) [0, 0, 0, 0] [0x61, 0x62, 0, 5, 0, 0, 0]).2
      ⟨[], [0x61, 0x62] ++ List.replicate 126 0, 0, 0, SYBFileInfoField.FileSize⟩
      [0, 0, 0, 0] [5, 0, 0, 0] (by decide)).2.2.2⟩

end SYBPatch
